import Mathlib

/-!
# lite: `src/api/system.c`

A shallow embedding of the two pieces of `system.c` that carry logic:

* `f_fuzzy_match` (lines 298-321), the fuzzy scorer;
* `f_poll_event` (lines 34-128) with `button_name` and `key_name`, the
  translation of native SDL events into the values handed to Lua.

Conventions.  A C string is the list of its bytes before the terminating
NUL; a `char *` cursor into it is the remaining suffix, so `*p` is the head
of the suffix (NUL when the suffix is empty) and `p++` drops the head.  A
cursor stepped beyond the terminator has left the string: the model reports
this as an overrun instead of inventing the bytes that C would read there.
An `int` is a 32-bit two's complement number: every `int` operation of the
source is followed by `wrap_int`, the reduction to that range.
-/

namespace Lite

/-! ## Strings -/

/-- Bytes of an ASCII literal. -/
def ascii (s : String) : List Nat := s.toList.map Char.toNat

/-- The `tolower` of `<ctype.h>` in the "C" locale (lite never calls
`setlocale`): the 26 capital letters move down by 32, every other byte is kept. -/
def tolower (c : Nat) : Nat := if 65 ≤ c ∧ c ≤ 90 then c + 32 else c

/-- Dereference `*p`: the byte under the cursor, NUL at the terminator. -/
def peek (p : List Nat) : Nat := p.headD 0

/-- Increment `p++`: `none` when the cursor already sits on the terminator,
since the incremented pointer then lies outside the string. -/
def advance : List Nat → Option (List Nat)
  | [] => none
  | _ :: t => some t

/-- The inner loop `while (*p == ' ') { p++; }` (lines 305 and 306). It stops at the
terminator because NUL is not a space. -/
def skip_spaces : List Nat → List Nat
  | [] => []
  | c :: t => if c = 32 then skip_spaces t else c :: t

/-- The `strlen` of `<string.h>`: number of bytes before the first NUL. -/
def strlen : List Nat → Nat
  | [] => 0
  | c :: t => if c = 0 then 0 else strlen t + 1

/-- Reduction of an integer to the 32-bit two's complement range of `int`,
from `-2147483648` to `2147483647`. -/
def wrap_int (n : Int) : Int := (n + 2147483648) % 4294967296 - 2147483648

/-! ## `f_fuzzy_match` -/

/-- How the `while` loop of `f_fuzzy_match` ends: the loop test failed with the
cursors and the score as given (`exit`), a cursor was stepped beyond its
terminator (`overrun`), or the iteration budget of the model ran out (`nofuel`). -/
inductive Scan where
  | nofuel
  | overrun
  | exit (str ptn : List Nat) (score : Int)
  deriving DecidableEq

/-- What `f_fuzzy_match` hands back: no value (`nomatch`, the `return 0`), one
number (`score`), or one of the two abnormal ends of the loop. -/
inductive Outcome where
  | nofuel
  | overrun
  | nomatch
  | score (n : Int)
  deriving DecidableEq

/-- The loop of lines 304-316.  Each iteration tests `*str && *ptn`, skips the
spaces under both cursors, compares the two bytes case-insensitively, updates
the `int` variables `score` and `run`, and steps `str` (and `ptn` on a hit).
One unit of fuel is spent per iteration. -/
def fuzzy_loop : Nat → List Nat → List Nat → Int → Int → Scan
  | 0, _, _, _, _ => Scan.nofuel
  | fuel + 1, str, ptn, score, run =>
    if peek str ≠ 0 ∧ peek ptn ≠ 0 then
      let str1 := skip_spaces str
      let ptn1 := skip_spaces ptn
      if tolower (peek str1) = tolower (peek ptn1) then
        match advance ptn1, advance str1 with
        | some ptn2, some str2 =>
          fuzzy_loop fuel str2 ptn2 (wrap_int (score + run)) (wrap_int (run + 1))
        | _, _ => Scan.overrun
      else
        match advance str1 with
        | some str2 => fuzzy_loop fuel str2 ptn1 (wrap_int (score - 1)) 0
        | none => Scan.overrun
    else Scan.exit str ptn score

/-- Lines 317-320: `if (*ptn) { return 0; }` and otherwise the `int` value
`score - (int) strlen(str)`. -/
def fuzzy_result : Scan → Outcome
  | Scan.nofuel => Outcome.nofuel
  | Scan.overrun => Outcome.overrun
  | Scan.exit str ptn score =>
    if peek ptn ≠ 0 then Outcome.nomatch
    else Outcome.score (wrap_int (score - wrap_int (strlen str : Int)))

/-- The function `f_fuzzy_match(str, ptn)`: candidate first, query second.  Every
iteration steps `str`, so one more unit of fuel than the candidate has bytes is
always enough (`f_fuzzy_match_ne_nofuel`). -/
def f_fuzzy_match (str ptn : List Nat) : Outcome :=
  fuzzy_result (fuzzy_loop (str.length + 1) str ptn 0 0)

/-- The candidate bytes still in front of the `str` cursor when the loop ends
(nothing when the loop did not end normally). -/
def scan_rest : Scan → List Nat
  | Scan.exit str _ _ => str
  | _ => []

/-- The query bytes still in front of the `ptn` cursor when the loop ends. -/
def scan_query_rest : Scan → List Nat
  | Scan.exit _ ptn _ => ptn
  | _ => []

/-- The unconsumed candidate tail of a call `f_fuzzy_match(str, ptn)`. -/
def fuzzy_rest (str ptn : List Nat) : List Nat :=
  scan_rest (fuzzy_loop (str.length + 1) str ptn 0 0)

/-- The unconsumed query tail of a call `f_fuzzy_match(str, ptn)`. -/
def fuzzy_query_rest (str ptn : List Nat) : List Nat :=
  scan_query_rest (fuzzy_loop (str.length + 1) str ptn 0 0)

/-! ### Specification-side notions for the scorer -/

/-- A string with every space character removed. -/
def strip (s : List Nat) : List Nat := s.filter (fun c => decide (c ≠ 32))

/-- The loop ended on spaces of the query: bytes of the query are left, and all
of them are spaces. -/
def stops_on_query_spaces (sc : Scan) : Prop :=
  scan_query_rest sc ≠ [] ∧ strip (scan_query_rest sc) = []

/-- An integer that an `int` can hold. -/
@[reducible] def fits_int (v : Int) : Prop := -2147483648 ≤ v ∧ v ≤ 2147483647

/-- Subtract a penalty from a score; the other outcomes are left alone. -/
def penalize (n : Nat) : Outcome → Outcome
  | Outcome.score v => Outcome.score (v - (n : Int))
  | o => o

/-- The loop of `f_fuzzy_match` over the mathematical integers, without the
reduction to `int`. -/
def ideal_loop : Nat → List Nat → List Nat → Int → Int → Scan
  | 0, _, _, _, _ => Scan.nofuel
  | fuel + 1, str, ptn, score, run =>
    if peek str ≠ 0 ∧ peek ptn ≠ 0 then
      let str1 := skip_spaces str
      let ptn1 := skip_spaces ptn
      if tolower (peek str1) = tolower (peek ptn1) then
        match advance ptn1, advance str1 with
        | some ptn2, some str2 => ideal_loop fuel str2 ptn2 (score + run) (run + 1)
        | _, _ => Scan.overrun
      else
        match advance str1 with
        | some str2 => ideal_loop fuel str2 ptn1 (score - 1) 0
        | none => Scan.overrun
    else Scan.exit str ptn score

/-- The result of `f_fuzzy_match` over the mathematical integers. -/
def ideal_result : Scan → Outcome
  | Scan.nofuel => Outcome.nofuel
  | Scan.overrun => Outcome.overrun
  | Scan.exit str ptn score =>
    if peek ptn ≠ 0 then Outcome.nomatch else Outcome.score (score - (strlen str : Int))

/-- The scorer over the mathematical integers. -/
def ideal_match (str ptn : List Nat) : Outcome :=
  ideal_result (ideal_loop (str.length + 1) str ptn 0 0)

/-- A loop end with its score reduced to `int`. -/
def wrap_scan : Scan → Scan
  | Scan.exit str ptn score => Scan.exit str ptn (wrap_int score)
  | sc => sc

/-- An outcome with its score reduced to `int`. -/
def wrap_outcome : Outcome → Outcome
  | Outcome.score v => Outcome.score (wrap_int v)
  | o => o

/-- The scan written without cursors, for strings free of spaces and NULs:
left-to-right greedy matching with the same score and run bookkeeping, over
the mathematical integers. -/
def greedy : List Nat → List Nat → Int → Int → Outcome
  | str, [], score, _ => Outcome.score (score - (str.length : Int))
  | [], _ :: _, _, _ => Outcome.nomatch
  | c :: str, p :: ptn, score, run =>
    if tolower c = tolower p then greedy str ptn (score + run) (run + 1)
    else greedy str (p :: ptn) (score - 1) 0

/-- The reward of an unbroken run of `k` hits: `0 + 1 + ... + (k - 1)`. -/
def run_reward (k : Nat) : Nat := k * (k - 1) / 2

/-- A loop end with both cursors lower-cased. -/
def lower_scan : Scan → Scan
  | Scan.exit str ptn score => Scan.exit (str.map tolower) (ptn.map tolower) score
  | sc => sc

/-! ## `f_poll_event` -/

/-- The window sub-events `e.window.event` that the code tells apart; every
other `SDL_WINDOWEVENT_*` id is `other`. -/
inductive WindowEventID where
  | resized
  | exposed
  | focus_gained
  | other (id : Nat)
  deriving DecidableEq

/-- A native `SDL_Event`, with the fields that `f_poll_event` reads.  `other`
stands for every event type without a `case` in the switch. -/
inductive SDL_Event where
  | quit
  | windowevent (event : WindowEventID) (data1 data2 : Int)
  | dropfile (file : List Nat)
  | keydown (sym : Nat)
  | keyup (sym : Nat)
  | textinput (text : List Nat)
  | textediting (text : List Nat) (start length : Int)
  | mousebuttondown (button : Nat) (x y : Int) (clicks : Nat)
  | mousebuttonup (button : Nat) (x y : Int) (clicks : Nat)
  | mousemotion (x y xrel yrel : Int)
  | mousewheel (x y : Int)
  | other (code : Nat)
  deriving DecidableEq

/-- The values one call pushes for Lua, as a tagged record: the first pushed
string is the constructor, the remaining pushed values are its fields, in
push order. -/
inductive Event where
  | quit
  | resized (w h : Int)
  | filedropped (file : List Nat)
  | keypressed (name : List Nat)
  | keyreleased (name : List Nat)
  | textinput (text : List Nat)
  | textediting (text : List Nat) (start length : Int)
  | mousepressed (button : String) (x y : Int) (clicks : Int)
  | mousereleased (button : String) (x y : Int)
  | mousemoved (x y xrel yrel : Int)
  | mousewheel (y : Int)
  deriving DecidableEq

/-- The number of values a call returns to Lua for an event (the `return n`). -/
def Event.count : Event → Nat
  | Event.quit => 1
  | Event.resized _ _ => 3
  | Event.filedropped _ => 2
  | Event.keypressed _ => 2
  | Event.keyreleased _ => 2
  | Event.textinput _ => 2
  | Event.textediting _ _ _ => 4
  | Event.mousepressed _ _ _ _ => 5
  | Event.mousereleased _ _ _ => 4
  | Event.mousemoved _ _ _ _ => 5
  | Event.mousewheel _ => 2

/-- What `f_poll_event` works on besides the event it fetches: the SDL event
queue, the mouse-capture mode set by `SDL_CaptureMouse`, and the number of
`SDL_UpdateWindowSurface` calls made so far. -/
structure Sys where
  queue : List SDL_Event
  capture : Bool
  redraws : Nat
  deriving DecidableEq

/-- The function `button_name` (lines 13-20). -/
def button_name (button : Nat) : String :=
  match button with
  | 1 => "left"
  | 2 => "middle"
  | 3 => "right"
  | _ => "?"

/-- The size of `char buf[16]` (line 35), the destination of `key_name`. -/
def buf_size : Nat := 16

/-- The call `strcpy(dst, src)` into a destination of `cap` bytes: the bytes of `src`
and its terminator are written, which is only defined when they fit. -/
def strcpy (cap : Nat) (src : List Nat) : Option (List Nat) :=
  if src.length + 1 ≤ cap then some src else none

/-- The loop `while (*p) { *p = tolower(*p); p++; }` of `key_name` (lines 26-29). -/
def lower_loop : List Nat → List Nat
  | [] => []
  | c :: t => if c = 0 then c :: t else tolower c :: lower_loop t

/-- The function `key_name(dst, sym)` (lines 23-31) for a destination of `cap` bytes.
`names` is the platform table behind `SDL_GetKeyName`.  The result is `none`
when `strcpy` writes past the destination. -/
def key_name (cap : Nat) (names : Nat → List Nat) (sym : Nat) : Option (List Nat) :=
  (strcpy cap (names sym)).map lower_loop

/-- Test `e.type == SDL_KEYDOWN`. -/
def is_keydown : SDL_Event → Bool
  | SDL_Event.keydown _ => true
  | _ => false

/-- The call `SDL_FlushEvent(SDL_KEYDOWN)`: every key-press event leaves the queue. -/
def flush_keydown (queue : List SDL_Event) : List SDL_Event :=
  queue.filter (fun e => !is_keydown e)

/-- How one call of `f_poll_event` ends: with the pushed event, or nothing when
the queue is empty, and the state it leaves (`ret`); with a write past `buf`
(`fault`); or with the model out of fuel (`nofuel`). -/
inductive Poll where
  | nofuel
  | fault
  | ret (ev : Option Event) (sys : Sys)
  deriving DecidableEq

/-- The body of `f_poll_event` (lines 38-127); the recursive calls are the
`goto top`, each spending one unit of fuel. -/
def poll_loop (names : Nat → List Nat) : Nat → Sys → Poll
  | 0, _ => Poll.nofuel
  | fuel + 1, sys =>
    match sys.queue with
    | [] => Poll.ret none sys
    | e :: rest =>
      let sys1 : Sys := ⟨rest, sys.capture, sys.redraws⟩
      match e with
      | SDL_Event.quit => Poll.ret (some Event.quit) sys1
      | SDL_Event.windowevent ev data1 data2 =>
        if ev = WindowEventID.resized then
          Poll.ret (some (Event.resized data1 data2)) sys1
        else
          let sys2 : Sys :=
            if ev = WindowEventID.exposed then ⟨rest, sys.capture, sys.redraws + 1⟩ else sys1
          let sys3 : Sys :=
            if ev = WindowEventID.focus_gained then
              ⟨flush_keydown sys2.queue, sys2.capture, sys2.redraws⟩
            else sys2
          poll_loop names fuel sys3
      | SDL_Event.dropfile file => Poll.ret (some (Event.filedropped file)) sys1
      | SDL_Event.keydown sym =>
        match key_name buf_size names sym with
        | some name => Poll.ret (some (Event.keypressed name)) sys1
        | none => Poll.fault
      | SDL_Event.keyup sym =>
        match key_name buf_size names sym with
        | some name => Poll.ret (some (Event.keyreleased name)) sys1
        | none => Poll.fault
      | SDL_Event.textinput text => Poll.ret (some (Event.textinput text)) sys1
      | SDL_Event.textediting text start length =>
        Poll.ret (some (Event.textediting text start length)) sys1
      | SDL_Event.mousebuttondown button x y clicks =>
        let sys2 : Sys := if button = 1 then ⟨rest, true, sys.redraws⟩ else sys1
        Poll.ret (some (Event.mousepressed (button_name button) x y clicks)) sys2
      | SDL_Event.mousebuttonup button x y _ =>
        let sys2 : Sys := if button = 1 then ⟨rest, false, sys.redraws⟩ else sys1
        Poll.ret (some (Event.mousereleased (button_name button) x y)) sys2
      | SDL_Event.mousemotion x y xrel yrel =>
        Poll.ret (some (Event.mousemoved x y xrel yrel)) sys1
      | SDL_Event.mousewheel _ y => Poll.ret (some (Event.mousewheel y)) sys1
      | SDL_Event.other _ => poll_loop names fuel sys1

/-- One call of `f_poll_event`.  Every `goto top` follows a fetched event, so one
more unit of fuel than the queue has events is enough. -/
def f_poll_event (names : Nat → List Nat) (sys : Sys) : Poll :=
  poll_loop names (sys.queue.length + 1) sys

/-- How the host's drain loop ends. -/
inductive Drained where
  | nofuel
  | fault
  | done (events : List Event) (sys : Sys)
  deriving DecidableEq

/-- The host's drain loop of the contract: call `f_poll_event` until it returns
nothing, collecting what the calls return. -/
def drain (names : Nat → List Nat) : Nat → Sys → Drained
  | 0, _ => Drained.nofuel
  | fuel + 1, sys =>
    match f_poll_event names sys with
    | Poll.nofuel => Drained.nofuel
    | Poll.fault => Drained.fault
    | Poll.ret none sys1 => Drained.done [] sys1
    | Poll.ret (some ev) sys1 =>
      match drain names fuel sys1 with
      | Drained.done events sys2 => Drained.done (ev :: events) sys2
      | d => d

/-- The drain loop with the fuel it needs: every call that returns an event has
taken that event off the queue. -/
def poll_until_none (names : Nat → List Nat) (sys : Sys) : Drained :=
  drain names (sys.queue.length + 1) sys

/-- The keycode `SDLK_RETURN`. -/
def SDLK_RETURN : Nat := 13

/-- The keycode `SDLK_KP_MEMSUBTRACT`: scancode 212 with the scancode bit `1 << 30`. -/
def SDLK_KP_MEMSUBTRACT : Nat := 1073742036

/-- Two rows of SDL2's key-name table (`SDL_GetKeyName`); the other keys are
left without a name. -/
def sdl_names (sym : Nat) : List Nat :=
  if sym = SDLK_RETURN then ascii "Return"
  else if sym = SDLK_KP_MEMSUBTRACT then ascii "Keypad MemSubtract"
  else []

/-! ### Specification-side notions for the event translation -/

/-- The normalized form of a native event: the event a call returns for it, with
the key name lower-cased byte by byte; `none` for the native events that are
swallowed (window events other than resize, unrecognized types). -/
def normal_form (names : Nat → List Nat) : SDL_Event → Option Event
  | SDL_Event.quit => some Event.quit
  | SDL_Event.windowevent WindowEventID.resized data1 data2 => some (Event.resized data1 data2)
  | SDL_Event.windowevent _ _ _ => none
  | SDL_Event.dropfile file => some (Event.filedropped file)
  | SDL_Event.keydown sym => some (Event.keypressed ((names sym).map tolower))
  | SDL_Event.keyup sym => some (Event.keyreleased ((names sym).map tolower))
  | SDL_Event.textinput text => some (Event.textinput text)
  | SDL_Event.textediting text start length => some (Event.textediting text start length)
  | SDL_Event.mousebuttondown button x y clicks =>
    some (Event.mousepressed (button_name button) x y clicks)
  | SDL_Event.mousebuttonup button x y _ => some (Event.mousereleased (button_name button) x y)
  | SDL_Event.mousemotion x y xrel yrel => some (Event.mousemoved x y xrel yrel)
  | SDL_Event.mousewheel _ y => some (Event.mousewheel y)
  | SDL_Event.other _ => none

/-- Test for a focus-gained window event. -/
def is_focus_gained : SDL_Event → Bool
  | SDL_Event.windowevent WindowEventID.focus_gained _ _ => true
  | _ => false

/-- The native events of a queue that are neither swallowed nor purged, in queue
order.  `purge` records that a focus-gained event has been processed: every
key press queued behind it is gone. -/
def survivors (names : Nat → List Nat) : Bool → List SDL_Event → List SDL_Event
  | _, [] => []
  | purge, e :: rest =>
    if is_focus_gained e then survivors names true rest
    else if (normal_form names e).isNone then survivors names purge rest
    else if purge && is_keydown e then survivors names purge rest
    else e :: survivors names purge rest

/-- Test that the platform name of a key event, with its terminator, fits into
`buf` (and is a C string). Events without a key pass. -/
def key_fits (names : Nat → List Nat) : SDL_Event → Bool
  | SDL_Event.keydown sym => decide ((names sym).length < buf_size ∧ 0 ∉ names sym)
  | SDL_Event.keyup sym => decide ((names sym).length < buf_size ∧ 0 ∉ names sym)
  | _ => true

/-- The key names of all key events of a queue fit into `buf`. -/
def names_fit (names : Nat → List Nat) (queue : List SDL_Event) : Prop :=
  ∀ e ∈ queue, key_fits names e = true

/-- What one call owes to a queue `queue` met with capture mode `cap`: nothing and an
empty queue when no event survives; otherwise the normalized form of the first
surviving event, leaving a shorter queue whose survivors are the remaining ones. -/
def poll_spec (names : Nat → List Nat) (queue : List SDL_Event) (cap : Bool) (res : Poll) : Prop :=
  (survivors names false queue = [] → ∃ red2, res = Poll.ret none ⟨[], cap, red2⟩) ∧
    (∀ e tl, survivors names false queue = e :: tl →
      ∃ ev q2 cap2 red2, normal_form names e = some ev ∧
        res = Poll.ret (some ev) ⟨q2, cap2, red2⟩ ∧
        survivors names false q2 = tl ∧ q2.length < queue.length ∧ q2 ⊆ queue)

/-! ## Basic facts -/

theorem tolower_eq_zero (c : Nat) : tolower c = 0 ↔ c = 0 := by
  unfold tolower
  split <;> omega

theorem tolower_eq_space (c : Nat) : tolower c = 32 ↔ c = 32 := by
  unfold tolower
  split <;> omega

theorem tolower_idem (c : Nat) : tolower (tolower c) = tolower c := by
  unfold tolower
  by_cases h : 65 ≤ c ∧ c ≤ 90
  · have h2 : ¬ (65 ≤ c + 32 ∧ c + 32 ≤ 90) := by omega
    rw [if_pos h, if_neg h2]
  · rw [if_neg h, if_neg h]

theorem tolower_ne_zero {c : Nat} (h : c ≠ 0) : tolower c ≠ 0 :=
  fun e => h ((tolower_eq_zero c).1 e)

/-- Two bytes have the same `tolower` exactly when they are equal or are the
capital and the small form of one ASCII letter. -/
theorem tolower_eq_iff (a b : Nat) : tolower a = tolower b ↔
    a = b ∨ (65 ≤ a ∧ a ≤ 90 ∧ b = a + 32) ∨ (65 ≤ b ∧ b ≤ 90 ∧ a = b + 32) := by
  unfold tolower
  split <;> split <;> omega

@[simp] theorem peek_nil : peek [] = 0 := rfl

@[simp] theorem peek_cons (c : Nat) (t : List Nat) : peek (c :: t) = c := rfl

theorem strlen_eq_length : ∀ (s : List Nat), 0 ∉ s → strlen s = s.length
  | [], _ => rfl
  | c :: t, h => by
    have hc : c ≠ 0 := fun e => h (by simp [e])
    have ht : 0 ∉ t := fun e => h (by simp [e])
    simp [strlen, hc, strlen_eq_length t ht]

theorem strip_nil : strip [] = [] := rfl

theorem strip_cons_space (t : List Nat) : strip (32 :: t) = strip t := by
  simp [strip]

theorem strip_cons_other {c : Nat} (h : c ≠ 32) (t : List Nat) :
    strip (c :: t) = c :: strip t := by
  simp [strip, h]

theorem strip_eq_self : ∀ (s : List Nat), 32 ∉ s → strip s = s
  | [], _ => rfl
  | c :: t, h => by
    have hc : c ≠ 32 := fun e => h (by simp [e])
    have ht : 32 ∉ t := fun e => h (by simp [e])
    rw [strip_cons_other hc, strip_eq_self t ht]

theorem space_not_mem_strip (s : List Nat) : 32 ∉ strip s := by
  simp [strip]

theorem zero_not_mem_strip {s : List Nat} (h : 0 ∉ s) : 0 ∉ strip s := by
  intro hm
  exact h (List.mem_of_mem_filter hm)

theorem length_strip : ∀ (s : List Nat), ((strip s).length : Int) + (s.count 32 : Int) = s.length
  | [] => rfl
  | c :: t => by
    have ih := length_strip t
    by_cases hc : c = 32
    · subst hc
      rw [strip_cons_space]
      simp only [List.count_cons_self, List.length_cons]
      push_cast
      omega
    · rw [strip_cons_other hc]
      rw [List.count_cons_of_ne (fun e => hc e.symm)]
      simp only [List.length_cons]
      push_cast
      omega

/-- Skipping spaces in a string whose last byte is not a space lands on a byte
that is not a space; the bytes behind it are again such a string. -/
theorem skip_spaces_lands : ∀ (s : List Nat), s ≠ [] → s.getLast? ≠ some 32 →
    ∃ a t, skip_spaces s = a :: t ∧ a ≠ 32 ∧ strip s = a :: strip t ∧
      t.length < s.length ∧ t.getLast? ≠ some 32 ∧ t <:+ s
  | [], h, _ => absurd rfl h
  | c :: t, _, hl => by
    by_cases hc : c = 32
    · subst hc
      have ht : t ≠ [] := by
        intro e
        subst e
        exact hl rfl
      have hl2 : t.getLast? ≠ some 32 := by
        cases t with
        | nil => exact absurd rfl ht
        | cons b u => rwa [List.getLast?_cons_cons] at hl
      obtain ⟨a, u, h1, h2, h3, h4, h5, h6⟩ := skip_spaces_lands t ht hl2
      refine ⟨a, u, ?_, h2, ?_, ?_, h5, ?_⟩
      · simp [skip_spaces, h1]
      · rw [strip_cons_space, h3]
      · simp only [List.length_cons]
        omega
      · exact h6.trans (List.suffix_cons 32 t)
    · refine ⟨c, t, ?_, hc, strip_cons_other hc t, ?_, ?_, List.suffix_cons c t⟩
      · simp [skip_spaces, hc]
      · simp
      · cases t with
        | nil => simp
        | cons b u => rwa [List.getLast?_cons_cons] at hl

theorem not_mem_of_suffix {x : Nat} {t s : List Nat} (h : t <:+ s) (hx : x ∉ s) : x ∉ t :=
  fun hm => hx (h.subset hm)

theorem greedy_nil_right (str : List Nat) (s r : Int) :
    greedy str [] s r = Outcome.score (s - (str.length : Int)) := by
  cases str <;> rfl

/-- Skipping spaces either runs onto the terminator, over nothing but spaces, or
lands on a byte that is not a space. -/
theorem skip_spaces_split : ∀ (s : List Nat), (skip_spaces s = [] ∧ strip s = []) ∨
    ∃ a t, skip_spaces s = a :: t ∧ a ≠ 32 ∧ strip s = a :: strip t ∧
      t.length < s.length ∧ t <:+ s ∧ (s.getLast? ≠ some 32 → t.getLast? ≠ some 32)
  | [] => Or.inl ⟨rfl, rfl⟩
  | c :: t => by
    by_cases hc : c = 32
    · subst hc
      rcases skip_spaces_split t with ⟨h, hs⟩ | ⟨a, u, h1, h2, h3, h4, h5, h6⟩
      · left
        exact ⟨by simp [skip_spaces, h], by rw [strip_cons_space, hs]⟩
      · right
        refine ⟨a, u, ?_, h2, ?_, ?_, h5.trans (List.suffix_cons 32 t), ?_⟩
        · simp [skip_spaces, h1]
        · rw [strip_cons_space, h3]
        · simp only [List.length_cons]
          omega
        · intro hl
          apply h6
          cases t with
          | nil => simp
          | cons b v => rwa [List.getLast?_cons_cons] at hl
    · right
      refine ⟨c, t, ?_, hc, strip_cons_other hc t, ?_, List.suffix_cons c t, ?_⟩
      · simp [skip_spaces, hc]
      · simp
      · intro hl
        cases t with
        | nil => simp
        | cons b v => rwa [List.getLast?_cons_cons] at hl

theorem zero_mem_of_skip_spaces : ∀ (l : List Nat), 0 ∈ skip_spaces l → 0 ∈ l
  | [], h => by simp [skip_spaces] at h
  | x :: l, h => by
    by_cases hx : x = 32
    · simp only [skip_spaces, hx, if_true] at h
      exact List.mem_cons_of_mem _ (zero_mem_of_skip_spaces l h)
    · simpa [skip_spaces, hx] using h

theorem last_cons_ne_space {b : Nat} {u : List Nat} (hb : b ≠ 32)
    (hu : u.getLast? ≠ some 32) : (b :: u).getLast? ≠ some 32 := by
  cases u with
  | nil => simpa using hb
  | cons y z => rwa [List.getLast?_cons_cons]

/-! ## The loop against the cursor-free scan -/

/-- On C strings, over the mathematical integers: the loop stays inside the
candidate when the candidate does not end in a space; it does not end on spaces
of the query when the query does not end in a space; and whenever it stays
inside and does not end on spaces of the query, its result is the greedy scan
of the two stripped strings, less one point for every space left in the
unconsumed candidate tail. -/
theorem ideal_loop_strip : ∀ (fuel : Nat) (str ptn : List Nat) (s r : Int),
    str.length < fuel → 0 ∉ str → 0 ∉ ptn →
    (str.getLast? ≠ some 32 → ideal_loop fuel str ptn s r ≠ Scan.overrun) ∧
      (ptn.getLast? ≠ some 32 → ¬ stops_on_query_spaces (ideal_loop fuel str ptn s r)) ∧
      (ideal_loop fuel str ptn s r ≠ Scan.overrun →
        ¬ stops_on_query_spaces (ideal_loop fuel str ptn s r) →
        ideal_result (ideal_loop fuel str ptn s r) =
            penalize ((scan_rest (ideal_loop fuel str ptn s r)).count 32)
              (greedy (strip str) (strip ptn) s r) ∧
          scan_rest (ideal_loop fuel str ptn s r) <:+ str) := by
  intro fuel
  induction fuel with
  | zero => intro str ptn s r h; omega
  | succ n ih =>
    intro str ptn s r hlen hs0 hp0
    cases str with
    | nil =>
      cases ptn with
      | nil =>
        simp [ideal_loop, ideal_result, scan_rest, strip_nil, greedy, penalize, strlen,
          stops_on_query_spaces, scan_query_rest]
      | cons p u =>
        have hp : p ≠ 0 := fun e => hp0 (by simp [e])
        have hex : ideal_loop (n + 1) [] (p :: u) s r = Scan.exit [] (p :: u) s := by
          simp [ideal_loop]
        rw [hex]
        refine ⟨fun _ h => Scan.noConfusion h, ?_, ?_⟩
        · intro hpl hstop
          obtain ⟨b, u2, _, _, h3, _⟩ := skip_spaces_lands (p :: u) (List.cons_ne_nil _ _) hpl
          rw [stops_on_query_spaces, scan_query_rest, h3] at hstop
          exact absurd hstop.2 (List.cons_ne_nil _ _)
        · intro _ hstop
          have hne : strip (p :: u) ≠ [] := by
            intro e
            exact hstop ⟨List.cons_ne_nil _ _, e⟩
          obtain ⟨x, y, hxy⟩ := List.exists_cons_of_ne_nil hne
          simp [ideal_result, scan_rest, strip_nil, hxy, greedy, penalize, hp]
    | cons c t =>
      have hc : c ≠ 0 := fun e => hs0 (by simp [e])
      cases ptn with
      | nil =>
        have hlen2 := length_strip (c :: t)
        have hsl2 := strlen_eq_length (c :: t) hs0
        have hex : ideal_loop (n + 1) (c :: t) [] s r = Scan.exit (c :: t) [] s := by
          simp [ideal_loop]
        rw [hex]
        refine ⟨fun _ h => Scan.noConfusion h, fun _ h => h.1 rfl, fun _ _ => ⟨?_, List.suffix_refl _⟩⟩
        simp only [ideal_result, scan_rest, strip_nil, greedy, penalize, peek_nil, ne_eq,
          not_true_eq_false, if_false, hsl2]
        congr 1
        omega
      | cons p u =>
        have hp : p ≠ 0 := fun e => hp0 (by simp [e])
        rcases skip_spaces_split (p :: u) with ⟨f0, fs⟩ | ⟨b, u2, f1, hb, f3, _, f6, f7⟩
        · -- only spaces are left of the query
          rcases skip_spaces_split (c :: t) with ⟨e0, _⟩ | ⟨a, t2, e1, ha, e3, e4, e6, e7⟩
          · have hover : ideal_loop (n + 1) (c :: t) (p :: u) s r = Scan.overrun := by
              simp [ideal_loop, hc, hp, e0, f0, advance]
            rw [hover]
            refine ⟨?_, fun _ h => h.1 rfl, fun hno => absurd rfl hno⟩
            intro hsl
            obtain ⟨a, t2, e1, _⟩ := skip_spaces_lands (c :: t) (List.cons_ne_nil _ _) hsl
            rw [e0] at e1
            exact absurd e1 (List.cons_ne_nil _ _).symm
          · have ha0 : a ≠ 0 := by
              intro e
              apply hs0
              apply zero_mem_of_skip_spaces
              rw [e1, e]
              simp
            have ht0 : 0 ∉ t2 := not_mem_of_suffix e6 hs0
            have hlt : t2.length < n := by
              simp only [List.length_cons] at e4 hlen
              omega
            have hne : ¬ (tolower a = 0) := tolower_ne_zero ha0
            have hstep : ideal_loop (n + 1) (c :: t) (p :: u) s r =
                ideal_loop n t2 [] (s - 1) 0 := by
              simp [ideal_loop, hc, hp, e1, f0, advance, tolower, hne]
              intro h
              exact absurd h hne
            obtain ⟨g0, g1, g2⟩ := ih t2 [] (s - 1) 0 hlt ht0 (by simp)
            rw [hstep, e3, fs]
            refine ⟨fun hsl => g0 (e7 hsl), fun _ => g1 (by simp), fun hno hstop => ?_⟩
            obtain ⟨g3, g4⟩ := g2 hno hstop
            refine ⟨?_, g4.trans e6⟩
            rw [g3, strip_nil, greedy_nil_right, greedy_nil_right]
            simp only [List.length_cons]
            congr 2
            push_cast
            omega
        · have hu0 : 0 ∉ u2 := not_mem_of_suffix f6 hp0
          have hbu0 : 0 ∉ b :: u2 := by
            rw [← f1]
            exact fun hm => hp0 (zero_mem_of_skip_spaces _ hm)
          have hb0 : b ≠ 0 := fun e => hbu0 (by simp [e])
          rcases skip_spaces_split (c :: t) with ⟨e0, _⟩ | ⟨a, t2, e1, ha, e3, e4, e6, e7⟩
          · have hover : ideal_loop (n + 1) (c :: t) (p :: u) s r = Scan.overrun := by
              have hne : ¬ (0 = tolower b) := fun e => tolower_ne_zero hb0 e.symm
              simp [ideal_loop, hc, hp, e0, f1, advance, tolower, hne]
            rw [hover]
            refine ⟨?_, fun _ h => h.1 rfl, fun hno => absurd rfl hno⟩
            intro hsl
            obtain ⟨a, t2, e1, _⟩ := skip_spaces_lands (c :: t) (List.cons_ne_nil _ _) hsl
            rw [e0] at e1
            exact absurd e1 (List.cons_ne_nil _ _).symm
          · have ht0 : 0 ∉ t2 := not_mem_of_suffix e6 hs0
            have hlt : t2.length < n := by
              simp only [List.length_cons] at e4 hlen
              omega
            have hstep : ideal_loop (n + 1) (c :: t) (p :: u) s r =
                if tolower a = tolower b then ideal_loop n t2 u2 (s + r) (r + 1)
                else ideal_loop n t2 (b :: u2) (s - 1) 0 := by
              simp [ideal_loop, hc, hp, e1, f1, advance]
            rw [hstep, e3, f3]
            by_cases hab : tolower a = tolower b
            · obtain ⟨g0, g1, g2⟩ := ih t2 u2 (s + r) (r + 1) hlt ht0 hu0
              simp only [hab, if_true, greedy]
              refine ⟨fun hsl => g0 (e7 hsl), fun hpl => g1 (f7 hpl), fun hno hstop => ?_⟩
              obtain ⟨g3, g4⟩ := g2 hno hstop
              exact ⟨g3, g4.trans e6⟩
            · obtain ⟨g0, g1, g2⟩ := ih t2 (b :: u2) (s - 1) 0 hlt ht0 hbu0
              simp only [hab, if_false, greedy]
              refine ⟨fun hsl => g0 (e7 hsl),
                fun hpl => g1 (last_cons_ne_space hb (f7 hpl)), fun hno hstop => ?_⟩
              obtain ⟨g3, g4⟩ := g2 hno hstop
              rw [strip_cons_other hb] at g3
              exact ⟨g3, g4.trans e6⟩

theorem length_skip_spaces_le : ∀ (s : List Nat), (skip_spaces s).length ≤ s.length
  | [] => Nat.le_refl _
  | c :: t => by
    have ih := length_skip_spaces_le t
    by_cases hc : c = 32
    · simp only [skip_spaces, hc, if_true, List.length_cons]
      omega
    · simp [skip_spaces, hc]

theorem length_of_advance {s t : List Nat} (h : advance s = some t) : t.length + 1 = s.length := by
  cases s with
  | nil => simp [advance] at h
  | cons c u =>
    simp only [advance, Option.some.injEq] at h
    subst h
    rfl

/-- The loop never runs out of fuel when given more fuel than the candidate has
bytes, and then the amount of fuel does not matter. -/
theorem ideal_loop_fuel : ∀ (fuel fuel2 : Nat) (str ptn : List Nat) (s r : Int),
    str.length < fuel → str.length < fuel2 →
    ideal_loop fuel str ptn s r ≠ Scan.nofuel ∧
      ideal_loop fuel str ptn s r = ideal_loop fuel2 str ptn s r := by
  intro fuel
  induction fuel with
  | zero => intro fuel2 str ptn s r h; omega
  | succ n ih =>
    intro fuel2 str ptn s r h1 h2
    cases fuel2 with
    | zero => omega
    | succ m =>
      have hk := length_skip_spaces_le str
      unfold ideal_loop
      by_cases ht : peek str ≠ 0 ∧ peek ptn ≠ 0
      · simp only [ht, and_self, if_true, ne_eq, not_false_eq_true]
        cases hs : advance (skip_spaces str) with
        | none =>
          by_cases hab : tolower (peek (skip_spaces str)) = tolower (peek (skip_spaces ptn))
          · cases hp : advance (skip_spaces ptn) <;> simp [hab]
          · simp [hab]
        | some str2 =>
          have hl := length_of_advance hs
          have hn : str2.length < n := by omega
          have hm : str2.length < m := by omega
          by_cases hab : tolower (peek (skip_spaces str)) = tolower (peek (skip_spaces ptn))
          · cases hp : advance (skip_spaces ptn) with
            | none => simp [hab]
            | some ptn2 =>
              simp only [hab, if_true]
              exact ih m str2 ptn2 _ _ hn hm
          · simp only [hab, if_false]
            exact ih m str2 _ _ _ hn hm
      · simp [ht]

/-- Totality: `ideal_match` always ends, in a score, in "no match" or in an overrun. -/
theorem ideal_match_ne_nofuel (str ptn : List Nat) : ideal_match str ptn ≠ Outcome.nofuel := by
  have h := (ideal_loop_fuel (str.length + 1) (str.length + 1) str ptn 0 0
    (Nat.lt_succ_self _) (Nat.lt_succ_self _)).1
  unfold ideal_match
  cases hs : ideal_loop (str.length + 1) str ptn 0 0 with
  | nofuel => exact absurd hs h
  | overrun => simp [ideal_result]
  | exit a b c =>
    simp only [ideal_result]
    split <;> simp

theorem penalize_zero (o : Outcome) : penalize 0 o = o := by
  cases o <;> simp [penalize]

theorem last_ne_space_of_clean {s : List Nat} (h : 32 ∉ s) : s.getLast? ≠ some 32 :=
  fun e => h (List.mem_of_mem_getLast? e)

/-- On strings free of NULs and spaces `ideal_match` is the greedy scan. -/
theorem ideal_match_clean (c q : List Nat) (hc0 : 0 ∉ c) (hq0 : 0 ∉ q)
    (hcs : 32 ∉ c) (hqs : 32 ∉ q) : ideal_match c q = greedy c q 0 0 := by
  obtain ⟨h0, h1, h2⟩ := ideal_loop_strip (c.length + 1) c q 0 0 (Nat.lt_succ_self _) hc0 hq0
  obtain ⟨h3, h4⟩ := h2 (h0 (last_ne_space_of_clean hcs)) (h1 (last_ne_space_of_clean hqs))
  have hz : (scan_rest (ideal_loop (c.length + 1) c q 0 0)).count 32 = 0 :=
    List.count_eq_zero.2 (not_mem_of_suffix h4 hcs)
  unfold ideal_match
  rw [h3, hz, penalize_zero, strip_eq_self c hcs, strip_eq_self q hqs]

/-! ## The greedy scan -/

theorem run_reward_succ (k : Nat) : run_reward (k + 1) = run_reward k + k :=
  Nat.triangle_succ k

/-- The greedy scan produces a score exactly when the query is, up to letter
case, a subsequence of the candidate, and "no match" otherwise. -/
theorem greedy_sublist : ∀ (str ptn : List Nat) (s r : Int),
    ((ptn.map tolower).Sublist (str.map tolower) → ∃ v, greedy str ptn s r = Outcome.score v) ∧
      (¬ (ptn.map tolower).Sublist (str.map tolower) → greedy str ptn s r = Outcome.nomatch)
  | str, [], s, r => by
    rw [greedy_nil_right]
    exact ⟨fun _ => ⟨_, rfl⟩, fun h => absurd (List.nil_sublist _) h⟩
  | [], p :: u, s, r => by
    constructor
    · intro h
      simp at h
    · intro _
      rfl
  | c :: t, p :: u, s, r => by
    by_cases hab : tolower c = tolower p
    · have ih := greedy_sublist t u (s + r) (r + 1)
      simp only [greedy, hab, if_true, List.map_cons, List.cons_sublist_cons]
      exact ih
    · have ih := greedy_sublist t (p :: u) (s - 1) 0
      have key : ((p :: u).map tolower).Sublist ((c :: t).map tolower) ↔
          ((p :: u).map tolower).Sublist (t.map tolower) := by
        simp only [List.map_cons]
        rw [List.sublist_cons_iff]
        constructor
        · rintro (h | ⟨r2, h1, _⟩)
          · exact h
          · simp only [List.cons.injEq] at h1
            exact absurd h1.1.symm hab
        · exact Or.inl
      simp only [greedy, hab, if_false]
      rw [key]
      exact ih

/-- No greedy scan scores more than one unbroken run over the whole query. -/
theorem greedy_bound : ∀ (str ptn : List Nat) (s r v : Int), 0 ≤ r →
    greedy str ptn s r = Outcome.score v →
    v ≤ s + (ptn.length : Int) * r + (run_reward ptn.length : Int)
      - ((str.length : Int) - (ptn.length : Int))
  | str, [], s, r, v, _, h => by
    rw [greedy_nil_right] at h
    simp only [Outcome.score.injEq] at h
    simp [run_reward]
    omega
  | [], p :: u, s, r, v, _, h => by
    simp [greedy] at h
  | c :: t, p :: u, s, r, v, hr, h => by
    by_cases hab : tolower c = tolower p
    · simp only [greedy, hab, if_true] at h
      have ih := greedy_bound t u (s + r) (r + 1) v (by omega) h
      simp only [List.length_cons, run_reward_succ]
      push_cast
      have e : (u.length : Int) * (r + 1) = (u.length : Int) * r + u.length := by ring
      rw [e] at ih
      have e2 : ((u.length : Int) + 1) * r = (u.length : Int) * r + r := by ring
      rw [e2]
      omega
    · simp only [greedy, hab, if_false] at h
      have ih := greedy_bound t (p :: u) (s - 1) 0 v (le_refl _) h
      simp only [List.length_cons, run_reward_succ, mul_zero, add_zero] at ih ⊢
      push_cast at ih ⊢
      have hk : (0 : Int) ≤ ((u.length : Int) + 1) * r :=
        mul_nonneg (by omega) hr
      omega

/-- An occurrence of the query at the front of the candidate is matched as one run. -/
theorem greedy_run : ∀ (q t : List Nat) (s r : Int),
    greedy (q ++ t) q s r =
      Outcome.score (s + (q.length : Int) * r + (run_reward q.length : Int) - (t.length : Int))
  | [], t, s, r => by
    rw [List.nil_append, greedy_nil_right]
    simp [run_reward]
  | a :: q, t, s, r => by
    have ih := greedy_run q t (s + r) (r + 1)
    have e : greedy ((a :: q) ++ t) (a :: q) s r = greedy (q ++ t) q (s + r) (r + 1) := by
      show greedy (a :: (q ++ t)) (a :: q) s r = _
      simp [greedy]
    rw [e, ih, List.length_cons, run_reward_succ]
    congr 1
    push_cast
    ring

/-- Candidate bytes that differ from the first query byte are skipped at one
point each. -/
theorem greedy_skip (a : Nat) (q rest : List Nat) : ∀ (p : List Nat) (s : Int),
    (∀ x ∈ p, tolower x ≠ tolower a) →
    greedy (p ++ rest) (a :: q) s 0 = greedy rest (a :: q) (s - (p.length : Int)) 0
  | [], s, _ => by simp
  | x :: p, s, h => by
    have hx : tolower x ≠ tolower a := h x (by simp)
    have ih := greedy_skip a q rest p (s - 1) (fun y hy => h y (by simp [hy]))
    have e : greedy ((x :: p) ++ rest) (a :: q) s 0 = greedy (p ++ rest) (a :: q) (s - 1) 0 := by
      show greedy (x :: (p ++ rest)) (a :: q) s 0 = _
      simp [greedy, hx]
    rw [e, ih, List.length_cons]
    congr 1
    push_cast
    ring

theorem lower_peek (s : List Nat) : peek (s.map tolower) = tolower (peek s) := by
  cases s <;> simp [tolower]

theorem lower_skip_spaces : ∀ (s : List Nat),
    skip_spaces (s.map tolower) = (skip_spaces s).map tolower
  | [] => rfl
  | c :: t => by
    have ih := lower_skip_spaces t
    by_cases hc : c = 32
    · subst hc
      simp [skip_spaces, tolower, ih]
    · have hc2 : tolower c ≠ 32 := fun e => hc ((tolower_eq_space c).1 e)
      simp [skip_spaces, hc, hc2]

theorem lower_advance (s : List Nat) :
    advance (s.map tolower) = (advance s).map (List.map tolower) := by
  cases s <;> rfl

theorem lower_strlen : ∀ (s : List Nat), strlen (s.map tolower) = strlen s
  | [] => rfl
  | c :: t => by
    have ih := lower_strlen t
    by_cases hc : c = 0
    · subst hc
      simp [strlen, tolower]
    · simp [strlen, hc, tolower_ne_zero hc, ih]

theorem ideal_result_lower (sc : Scan) : ideal_result (lower_scan sc) = ideal_result sc := by
  cases sc with
  | nofuel => rfl
  | overrun => rfl
  | exit a b v =>
    simp only [lower_scan, ideal_result, lower_peek, lower_strlen, ne_eq, tolower_eq_zero]

/-- Lower-casing both inputs commutes with the loop. -/
theorem ideal_loop_lower : ∀ (fuel : Nat) (str ptn : List Nat) (s r : Int),
    ideal_loop fuel (str.map tolower) (ptn.map tolower) s r =
      lower_scan (ideal_loop fuel str ptn s r) := by
  intro fuel
  induction fuel with
  | zero => intro str ptn s r; rfl
  | succ n ih =>
    intro str ptn s r
    unfold ideal_loop
    simp only [lower_peek, lower_skip_spaces, lower_advance, tolower_idem, ne_eq, tolower_eq_zero]
    by_cases ht : ¬ peek str = 0 ∧ ¬ peek ptn = 0
    · simp only [ht, and_self, if_true, not_false_eq_true]
      by_cases hab : tolower (peek (skip_spaces str)) = tolower (peek (skip_spaces ptn))
      · simp only [hab, if_true]
        cases hp : advance (skip_spaces ptn) with
        | none => simp [lower_scan]
        | some ptn2 =>
          cases hs : advance (skip_spaces str) with
          | none => simp [lower_scan]
          | some str2 => simp [ih]
      · simp only [hab, if_false]
        cases hs : advance (skip_spaces str) with
        | none => simp [lower_scan]
        | some str2 => simp [ih]
    · simp [ht, lower_scan]

theorem ideal_match_lower (c q : List Nat) :
    ideal_match (c.map tolower) (q.map tolower) = ideal_match c q := by
  unfold ideal_match
  rw [List.length_map, ideal_loop_lower, ideal_result_lower]

/-! ## `int` arithmetic and the loop over the integers -/

theorem wrap_int_zero : wrap_int 0 = 0 := by decide

theorem wrap_int_add (a b : Int) : wrap_int (wrap_int a + wrap_int b) = wrap_int (a + b) := by
  unfold wrap_int
  omega

theorem wrap_int_succ (a : Int) : wrap_int (wrap_int a + 1) = wrap_int (a + 1) := by
  unfold wrap_int
  omega

theorem wrap_int_pred (a : Int) : wrap_int (wrap_int a - 1) = wrap_int (a - 1) := by
  unfold wrap_int
  omega

theorem wrap_int_sub (a b : Int) : wrap_int (wrap_int a - wrap_int b) = wrap_int (a - b) := by
  unfold wrap_int
  omega

theorem wrap_int_sub_left (a b : Int) : wrap_int (wrap_int a - b) = wrap_int (a - b) := by
  unfold wrap_int
  omega

theorem wrap_int_of_fits {v : Int} (h : fits_int v) : wrap_int v = v := by
  unfold fits_int at h
  unfold wrap_int
  omega

theorem wrap_int_le {v : Int} (h : -2147483648 ≤ v) : wrap_int v ≤ v := by
  unfold wrap_int
  omega

/-- The loop of the source is the loop over the integers with the score reduced
to `int`: the control flow never looks at `score` or `run`. -/
theorem fuzzy_loop_wrap : ∀ (fuel : Nat) (str ptn : List Nat) (s r : Int),
    fuzzy_loop fuel str ptn (wrap_int s) (wrap_int r) = wrap_scan (ideal_loop fuel str ptn s r) := by
  intro fuel
  induction fuel with
  | zero => intro str ptn s r; rfl
  | succ n ih =>
    intro str ptn s r
    unfold fuzzy_loop ideal_loop
    by_cases ht : peek str ≠ 0 ∧ peek ptn ≠ 0
    · simp only [ht, and_self, if_true, ne_eq, not_false_eq_true]
      by_cases hab : tolower (peek (skip_spaces str)) = tolower (peek (skip_spaces ptn))
      · simp only [hab, if_true]
        cases hp : advance (skip_spaces ptn) with
        | none => simp [wrap_scan]
        | some ptn2 =>
          cases hs : advance (skip_spaces str) with
          | none => simp [wrap_scan]
          | some str2 =>
            simp only [wrap_int_add, wrap_int_succ]
            exact ih str2 ptn2 (s + r) (r + 1)
      · simp only [hab, if_false]
        cases hs : advance (skip_spaces str) with
        | none => simp [wrap_scan]
        | some str2 =>
          simp only [wrap_int_pred]
          have h := ih str2 (skip_spaces ptn) (s - 1) 0
          rw [wrap_int_zero] at h
          exact h
    · simp [ht, wrap_scan]

theorem fuzzy_result_wrap (sc : Scan) :
    fuzzy_result (wrap_scan sc) = wrap_outcome (ideal_result sc) := by
  cases sc with
  | nofuel => rfl
  | overrun => rfl
  | exit a b v =>
    simp only [wrap_scan, fuzzy_result, ideal_result]
    split
    · rfl
    · simp only [wrap_outcome, wrap_int_sub]

theorem fuzzy_loop_start (str ptn : List Nat) :
    fuzzy_loop (str.length + 1) str ptn 0 0 =
      wrap_scan (ideal_loop (str.length + 1) str ptn 0 0) := by
  have h := fuzzy_loop_wrap (str.length + 1) str ptn 0 0
  rw [wrap_int_zero] at h
  exact h

/-- The scorer of the source is the scorer over the integers with its score
reduced to `int`. -/
theorem f_fuzzy_match_wrap (str ptn : List Nat) :
    f_fuzzy_match str ptn = wrap_outcome (ideal_match str ptn) := by
  unfold f_fuzzy_match ideal_match
  rw [fuzzy_loop_start, fuzzy_result_wrap]

theorem scan_rest_wrap (sc : Scan) : scan_rest (wrap_scan sc) = scan_rest sc := by
  cases sc <;> rfl

theorem scan_query_rest_wrap (sc : Scan) : scan_query_rest (wrap_scan sc) = scan_query_rest sc := by
  cases sc <;> rfl

theorem wrap_scan_overrun (sc : Scan) : wrap_scan sc = Scan.overrun ↔ sc = Scan.overrun := by
  cases sc <;> simp [wrap_scan]

theorem wrap_outcome_overrun (o : Outcome) :
    wrap_outcome o = Outcome.overrun ↔ o = Outcome.overrun := by
  cases o <;> simp [wrap_outcome]

theorem ideal_result_overrun (sc : Scan) :
    ideal_result sc = Outcome.overrun ↔ sc = Scan.overrun := by
  cases sc with
  | nofuel => simp [ideal_result]
  | overrun => simp [ideal_result]
  | exit a b v =>
    simp only [ideal_result]
    split <;> simp

/-- Totality: `f_fuzzy_match` always ends, in a score, in "no match" or in an overrun. -/
theorem f_fuzzy_match_ne_nofuel (str ptn : List Nat) :
    f_fuzzy_match str ptn ≠ Outcome.nofuel := by
  rw [f_fuzzy_match_wrap]
  have h := ideal_match_ne_nofuel str ptn
  cases hm : ideal_match str ptn <;> simp_all [wrap_outcome]

/-- On strings free of NULs and spaces `f_fuzzy_match` is the greedy scan, with
its score reduced to `int`. -/
theorem f_fuzzy_match_clean (c q : List Nat) (hc0 : 0 ∉ c) (hq0 : 0 ∉ q)
    (hcs : 32 ∉ c) (hqs : 32 ∉ q) : f_fuzzy_match c q = wrap_outcome (greedy c q 0 0) := by
  rw [f_fuzzy_match_wrap, ideal_match_clean c q hc0 hq0 hcs hqs]

/-- Changing the case of letters in both strings does not change what
`f_fuzzy_match` computes, the abnormal ends included. -/
theorem f_fuzzy_match_case (c c2 q q2 : List Nat)
    (hc : c.map tolower = c2.map tolower) (hq : q.map tolower = q2.map tolower) :
    f_fuzzy_match c q = f_fuzzy_match c2 q2 := by
  rw [f_fuzzy_match_wrap, f_fuzzy_match_wrap, ← ideal_match_lower c q,
    ← ideal_match_lower c2 q2, hc, hq]

/-- A score of the greedy scan is at least the start score minus the length of
the candidate, and the query is then no longer than the candidate. -/
theorem greedy_range : ∀ (str ptn : List Nat) (s r v : Int), 0 ≤ r →
    greedy str ptn s r = Outcome.score v →
    s - (str.length : Int) ≤ v ∧ ptn.length ≤ str.length
  | str, [], s, r, v, _, h => by
    rw [greedy_nil_right] at h
    simp only [Outcome.score.injEq] at h
    simp only [List.length_nil]
    omega
  | [], p :: u, s, r, v, _, h => by
    simp [greedy] at h
  | c :: t, p :: u, s, r, v, hr, h => by
    by_cases hab : tolower c = tolower p
    · simp only [greedy, hab, if_true] at h
      have ih := greedy_range t u (s + r) (r + 1) v (by omega) h
      simp only [List.length_cons]
      push_cast
      omega
    · simp only [greedy, hab, if_false] at h
      have ih := greedy_range t (p :: u) (s - 1) 0 v (le_refl _) h
      simp only [List.length_cons] at ih ⊢
      push_cast at ih ⊢
      omega

theorem run_reward_mono {k n : Nat} (h : k ≤ n) : run_reward k ≤ run_reward n :=
  Nat.div_le_div_right (Nat.mul_le_mul h (Nat.sub_le_sub_right h 1))

theorem run_reward_small {k : Nat} (h : k ≤ 65536) : run_reward k ≤ 2147450880 :=
  le_trans (run_reward_mono h) (by decide)

/-- The score of an unbroken occurrence of the query, as the source computes it. -/
theorem f_fuzzy_match_run (c q : List Nat) (hc0 : 0 ∉ c) (hq0 : 0 ∉ q)
    (hcs : 32 ∉ c) (hqs : 32 ∉ q) (p t : List Nat) (hcat : c = p ++ q ++ t)
    (hp : ∀ x ∈ p, ∀ y ∈ q.head?, tolower x ≠ tolower y) :
    f_fuzzy_match c q = Outcome.score
      (wrap_int ((run_reward q.length : Int) - (p.length : Int) - (t.length : Int))) := by
  rw [f_fuzzy_match_clean c q hc0 hq0 hcs hqs]
  subst hcat
  cases q with
  | nil =>
    rw [greedy_nil_right]
    simp only [wrap_outcome, Outcome.score.injEq]
    congr 1
    simp [run_reward]
    omega
  | cons a q =>
    have hp2 : ∀ x ∈ p, tolower x ≠ tolower a := fun x hx => hp x hx a (by simp)
    rw [List.append_assoc, greedy_skip a q _ p 0 hp2, greedy_run]
    simp only [wrap_outcome, Outcome.score.injEq]
    congr 1
    simp only [mul_zero, add_zero, zero_sub]
    omega

/-- With an empty query the loop body never runs. -/
theorem f_fuzzy_match_nil (c : List Nat) :
    f_fuzzy_match c [] = Outcome.score (wrap_int (0 - wrap_int (strlen c : Int))) := by
  simp [f_fuzzy_match, fuzzy_loop, fuzzy_result]

/-! ## Facts about `f_poll_event` -/

theorem button_name_left (button : Nat) : button_name button = "left" ↔ button = 1 := by
  unfold button_name
  split <;> simp_all

/-- Whatever a run of the body returns, the capture mode it leaves is decided by
the returned event alone. -/
theorem poll_loop_capture (names : Nat → List Nat) : ∀ (fuel : Nat) (sys sys2 : Sys)
    (ev : Option Event), poll_loop names fuel sys = Poll.ret ev sys2 →
    ((∃ x y clicks, ev = some (Event.mousepressed "left" x y clicks)) → sys2.capture = true) ∧
    ((∃ x y, ev = some (Event.mousereleased "left" x y)) → sys2.capture = false) ∧
    ((∀ x y clicks, ev ≠ some (Event.mousepressed "left" x y clicks)) →
      (∀ x y, ev ≠ some (Event.mousereleased "left" x y)) → sys2.capture = sys.capture) := by
  intro fuel
  induction fuel with
  | zero =>
    intro sys sys2 ev h
    simp [poll_loop] at h
  | succ n ih =>
    intro sys sys2 ev h
    obtain ⟨queue, cap, red⟩ := sys
    cases queue with
    | nil =>
      simp only [poll_loop, Poll.ret.injEq] at h
      obtain ⟨h1, h2⟩ := h
      subst h1 h2
      simp
    | cons e rest =>
      cases e with
      | windowevent w d1 d2 =>
        simp only [poll_loop] at h
        by_cases hw : w = WindowEventID.resized
        · simp only [hw, if_true, Poll.ret.injEq] at h
          obtain ⟨h1, h2⟩ := h
          subst h1 h2
          simp
        · simp only [hw, if_false] at h
          have h3 := ih _ _ _ h
          by_cases he : w = WindowEventID.exposed <;>
            by_cases hf : w = WindowEventID.focus_gained <;>
            simpa [he, hf] using h3
      | other code =>
        simp only [poll_loop] at h
        exact ih ⟨rest, cap, red⟩ _ _ h
      | keydown sym =>
        simp only [poll_loop] at h
        cases hk : key_name buf_size names sym with
        | none => simp [hk] at h
        | some name =>
          simp only [hk, Poll.ret.injEq] at h
          obtain ⟨h1, h2⟩ := h
          subst h1 h2
          simp
      | keyup sym =>
        simp only [poll_loop] at h
        cases hk : key_name buf_size names sym with
        | none => simp [hk] at h
        | some name =>
          simp only [hk, Poll.ret.injEq] at h
          obtain ⟨h1, h2⟩ := h
          subst h1 h2
          simp
      | mousebuttondown button x y clicks =>
        simp only [poll_loop, Poll.ret.injEq] at h
        obtain ⟨h1, h2⟩ := h
        subst h1 h2
        by_cases hb : button = 1
        · subst hb
          simp [button_name]
        · have hn : button_name button ≠ "left" := fun e => hb ((button_name_left button).1 e)
          simp [hb, hn]
      | mousebuttonup button x y clicks =>
        simp only [poll_loop, Poll.ret.injEq] at h
        obtain ⟨h1, h2⟩ := h
        subst h1 h2
        by_cases hb : button = 1
        · subst hb
          simp [button_name]
        · have hn : button_name button ≠ "left" := fun e => hb ((button_name_left button).1 e)
          simp [hb, hn]
      | _ =>
        simp only [poll_loop, Poll.ret.injEq] at h
        obtain ⟨h1, h2⟩ := h
        subst h1 h2
        simp

theorem lower_loop_eq_map : ∀ (s : List Nat), 0 ∉ s → lower_loop s = s.map tolower
  | [], _ => rfl
  | c :: t, h => by
    have hc : c ≠ 0 := fun e => h (by simp [e])
    have ht : 0 ∉ t := fun e => h (by simp [e])
    simp [lower_loop, hc, lower_loop_eq_map t ht]

/-- A platform name that fits into `buf` comes back lower-cased byte by byte:
same length, no capital letter left, every other byte as it was. -/
theorem key_name_fits (names : Nat → List Nat) (sym : Nat)
    (hfit : (names sym).length < buf_size) (h0 : 0 ∉ names sym) :
    key_name buf_size names sym = some ((names sym).map tolower) ∧
      ((names sym).map tolower).length = (names sym).length ∧
      (∀ c ∈ (names sym).map tolower, ¬ (65 ≤ c ∧ c ≤ 90)) ∧
      (∀ c, ¬ (65 ≤ c ∧ c ≤ 90) → tolower c = c) := by
  refine ⟨?_, List.length_map _ _, ?_, ?_⟩
  · have hle : (names sym).length + 1 ≤ buf_size := hfit
    simp [key_name, strcpy, hle, lower_loop_eq_map _ h0]
  · intro c hc
    obtain ⟨d, _, rfl⟩ := List.mem_map.1 hc
    unfold tolower
    split <;> omega
  · intro c hc
    simp [tolower, hc]

/-! ### The drain loop against the surviving events -/

theorem survivors_true_flush (names : Nat → List Nat) : ∀ (q : List SDL_Event),
    survivors names true (flush_keydown q) = survivors names true q
  | [] => rfl
  | e :: rest => by
    have ih := survivors_true_flush names rest
    cases hk : is_keydown e with
    | true =>
      cases e <;> simp [is_keydown] at hk
      simp [flush_keydown, is_keydown, survivors, is_focus_gained, normal_form] at ih ⊢
      exact ih
    | false =>
      have hf : flush_keydown (e :: rest) = e :: flush_keydown rest := by
        simp [flush_keydown, hk]
      rw [hf]
      simp only [survivors, ih, hk, Bool.and_false]

theorem survivors_false_flush (names : Nat → List Nat) : ∀ (q : List SDL_Event),
    survivors names false (flush_keydown q) = survivors names true q
  | [] => rfl
  | e :: rest => by
    have ih := survivors_false_flush names rest
    cases hk : is_keydown e with
    | true =>
      cases e <;> simp [is_keydown] at hk
      simp [flush_keydown, is_keydown, survivors, is_focus_gained, normal_form] at ih ⊢
      exact ih
    | false =>
      have hf : flush_keydown (e :: rest) = e :: flush_keydown rest := by
        simp [flush_keydown, hk]
      rw [hf]
      simp only [survivors, hk, Bool.and_false, Bool.false_and]
      rw [ih, survivors_true_flush names rest]

theorem names_fit_subset (names : Nat → List Nat) {q q2 : List SDL_Event} (h : q2 ⊆ q)
    (hfit : names_fit names q) : names_fit names q2 :=
  fun e he => hfit e (h he)

theorem flush_keydown_subset (q : List SDL_Event) : flush_keydown q ⊆ q :=
  fun _ h => List.mem_of_mem_filter h

theorem flush_keydown_length (q : List SDL_Event) : (flush_keydown q).length ≤ q.length :=
  List.length_filter_le _ _

theorem poll_spec_swallow (names : Nat → List Nat) (e : SDL_Event) (rest q3 : List SDL_Event)
    (cap : Bool) (res : Poll) (h : poll_spec names q3 cap res)
    (hs : survivors names false (e :: rest) = survivors names false q3)
    (hsub : q3 ⊆ rest) (hlen : q3.length ≤ rest.length) :
    poll_spec names (e :: rest) cap res := by
  obtain ⟨h1, h2⟩ := h
  constructor
  · intro hn
    exact h1 (hs ▸ hn)
  · intro e2 tl he
    obtain ⟨ev, q2, cap2, red2, g1, g2, g3, g4, g5⟩ := h2 e2 tl (hs ▸ he)
    refine ⟨ev, q2, cap2, red2, g1, g2, g3, ?_, ?_⟩
    · simp only [List.length_cons]
      omega
    · exact fun x hx => List.mem_cons_of_mem _ (hsub (g5 hx))

theorem poll_spec_return (names : Nat → List Nat) (e : SDL_Event) (rest : List SDL_Event)
    (cap cap2 : Bool) (red2 : Nat) (ev : Event) (hn : normal_form names e = some ev)
    (hf : is_focus_gained e = false) :
    poll_spec names (e :: rest) cap (Poll.ret (some ev) ⟨rest, cap2, red2⟩) := by
  have hs : survivors names false (e :: rest) = e :: survivors names false rest := by
    simp [survivors, hf, hn]
  constructor
  · intro h
    rw [hs] at h
    exact absurd h (List.cons_ne_nil _ _)
  · intro e2 tl he
    rw [hs] at he
    simp only [List.cons.injEq] at he
    obtain ⟨he1, he2⟩ := he
    subst he1 he2
    exact ⟨ev, rest, cap2, red2, hn, rfl, rfl, by simp, List.subset_cons_self _ _⟩

/-- One run of the body does what `poll_spec` asks, on every queue whose key
names fit into `buf`. -/
theorem poll_loop_spec (names : Nat → List Nat) : ∀ (fuel : Nat) (q : List SDL_Event)
    (cap : Bool) (red : Nat), q.length < fuel → names_fit names q →
    poll_spec names q cap (poll_loop names fuel ⟨q, cap, red⟩) := by
  intro fuel
  induction fuel with
  | zero => intro q cap red h; omega
  | succ n ih =>
    intro q cap red hlen hfit
    cases q with
    | nil =>
      exact ⟨fun _ => ⟨red, rfl⟩, fun e tl h => by simp [survivors] at h⟩
    | cons e rest =>
      have hrest : rest.length < n := by
        simp only [List.length_cons] at hlen
        omega
      have hfit_rest : names_fit names rest :=
        names_fit_subset names (List.subset_cons_self _ _) hfit
      cases e with
      | windowevent w d1 d2 =>
        cases w with
        | resized => exact poll_spec_return names _ rest cap cap red _ rfl rfl
        | exposed =>
          have hp : poll_loop names (n + 1) ⟨SDL_Event.windowevent WindowEventID.exposed d1 d2 :: rest,
              cap, red⟩ = poll_loop names n ⟨rest, cap, red + 1⟩ := by
            simp [poll_loop]
          rw [hp]
          exact poll_spec_swallow names _ rest rest cap _ (ih rest cap (red + 1) hrest hfit_rest)
            (by simp [survivors, is_focus_gained, normal_form]) (fun _ h => h) (le_refl _)
        | focus_gained =>
          have hp : poll_loop names (n + 1)
              ⟨SDL_Event.windowevent WindowEventID.focus_gained d1 d2 :: rest, cap, red⟩ =
              poll_loop names n ⟨flush_keydown rest, cap, red⟩ := by
            simp [poll_loop]
          rw [hp]
          have hl := flush_keydown_length rest
          exact poll_spec_swallow names _ rest (flush_keydown rest) cap _
            (ih (flush_keydown rest) cap red (by omega)
              (names_fit_subset names (flush_keydown_subset rest) hfit_rest))
            (by simp [survivors, is_focus_gained, survivors_false_flush])
            (flush_keydown_subset rest) hl
        | other id =>
          have hp : poll_loop names (n + 1)
              ⟨SDL_Event.windowevent (WindowEventID.other id) d1 d2 :: rest, cap, red⟩ =
              poll_loop names n ⟨rest, cap, red⟩ := by
            simp [poll_loop]
          rw [hp]
          exact poll_spec_swallow names _ rest rest cap _ (ih rest cap red hrest hfit_rest)
            (by simp [survivors, is_focus_gained, normal_form]) (fun _ h => h) (le_refl _)
      | other code =>
        have hp : poll_loop names (n + 1) ⟨SDL_Event.other code :: rest, cap, red⟩ =
            poll_loop names n ⟨rest, cap, red⟩ := by
          simp [poll_loop]
        rw [hp]
        exact poll_spec_swallow names _ rest rest cap _ (ih rest cap red hrest hfit_rest)
          (by simp [survivors, is_focus_gained, normal_form]) (fun _ h => h) (le_refl _)
      | keydown sym =>
        have hk0 := hfit (SDL_Event.keydown sym) (by simp)
        simp only [key_fits, decide_eq_true_eq] at hk0
        obtain ⟨k1, k2⟩ := hk0
        have hk := (key_name_fits names sym k1 k2).1
        have hp : poll_loop names (n + 1) ⟨SDL_Event.keydown sym :: rest, cap, red⟩ =
            Poll.ret (some (Event.keypressed ((names sym).map tolower))) ⟨rest, cap, red⟩ := by
          simp [poll_loop, hk]
        rw [hp]
        exact poll_spec_return names _ rest cap cap red _ rfl rfl
      | keyup sym =>
        have hk0 := hfit (SDL_Event.keyup sym) (by simp)
        simp only [key_fits, decide_eq_true_eq] at hk0
        obtain ⟨k1, k2⟩ := hk0
        have hk := (key_name_fits names sym k1 k2).1
        have hp : poll_loop names (n + 1) ⟨SDL_Event.keyup sym :: rest, cap, red⟩ =
            Poll.ret (some (Event.keyreleased ((names sym).map tolower))) ⟨rest, cap, red⟩ := by
          simp [poll_loop, hk]
        rw [hp]
        exact poll_spec_return names _ rest cap cap red _ rfl rfl
      | mousebuttondown button x y clicks =>
        by_cases hb : button = 1
        · have hp : poll_loop names (n + 1)
              ⟨SDL_Event.mousebuttondown button x y clicks :: rest, cap, red⟩ =
              Poll.ret (some (Event.mousepressed (button_name button) x y clicks))
                ⟨rest, true, red⟩ := by
            simp [poll_loop, hb]
          rw [hp]
          exact poll_spec_return names _ rest cap true red _ rfl rfl
        · have hp : poll_loop names (n + 1)
              ⟨SDL_Event.mousebuttondown button x y clicks :: rest, cap, red⟩ =
              Poll.ret (some (Event.mousepressed (button_name button) x y clicks))
                ⟨rest, cap, red⟩ := by
            simp [poll_loop, hb]
          rw [hp]
          exact poll_spec_return names _ rest cap cap red _ rfl rfl
      | mousebuttonup button x y clicks =>
        by_cases hb : button = 1
        · have hp : poll_loop names (n + 1)
              ⟨SDL_Event.mousebuttonup button x y clicks :: rest, cap, red⟩ =
              Poll.ret (some (Event.mousereleased (button_name button) x y))
                ⟨rest, false, red⟩ := by
            simp [poll_loop, hb]
          rw [hp]
          exact poll_spec_return names _ rest cap false red _ rfl rfl
        · have hp : poll_loop names (n + 1)
              ⟨SDL_Event.mousebuttonup button x y clicks :: rest, cap, red⟩ =
              Poll.ret (some (Event.mousereleased (button_name button) x y))
                ⟨rest, cap, red⟩ := by
            simp [poll_loop, hb]
          rw [hp]
          exact poll_spec_return names _ rest cap cap red _ rfl rfl
      | quit => exact poll_spec_return names _ rest cap cap red _ rfl rfl
      | dropfile file => exact poll_spec_return names _ rest cap cap red _ rfl rfl
      | textinput text => exact poll_spec_return names _ rest cap cap red _ rfl rfl
      | textediting text start length =>
        exact poll_spec_return names _ rest cap cap red _ rfl rfl
      | mousemotion x y xrel yrel => exact poll_spec_return names _ rest cap cap red _ rfl rfl
      | mousewheel x y => exact poll_spec_return names _ rest cap cap red _ rfl rfl

/-- Draining a queue whose key names fit into `buf` ends, returns the normalized
forms of the surviving events in queue order, and leaves the queue empty. -/
theorem drain_spec (names : Nat → List Nat) : ∀ (fuel : Nat) (q : List SDL_Event)
    (cap : Bool) (red : Nat), q.length < fuel → names_fit names q →
    ∃ cap2 red2, drain names fuel ⟨q, cap, red⟩ =
      Drained.done ((survivors names false q).filterMap (normal_form names)) ⟨[], cap2, red2⟩ := by
  intro fuel
  induction fuel with
  | zero => intro q cap red h; omega
  | succ n ih =>
    intro q cap red hlen hfit
    obtain ⟨h1, h2⟩ := poll_loop_spec names (q.length + 1) q cap red (Nat.lt_succ_self _) hfit
    cases hs : survivors names false q with
    | nil =>
      obtain ⟨red2, hr⟩ := h1 hs
      refine ⟨cap, red2, ?_⟩
      simp only [drain, f_poll_event, hr, List.filterMap_nil]
    | cons e tl =>
      obtain ⟨ev, q2, cap2, red2, g1, g2, g3, g4, g5⟩ := h2 e tl hs
      obtain ⟨cap3, red3, hd⟩ := ih q2 cap2 red2 (by omega) (names_fit_subset names g5 hfit)
      refine ⟨cap3, red3, ?_⟩
      simp only [drain, f_poll_event, g2, hd, g3, List.filterMap_cons, g1]

/-- The claim's drain property for queues whose key names fit into `buf`. -/
theorem poll_until_none_spec (names : Nat → List Nat) (q : List SDL_Event) (cap : Bool)
    (red : Nat) (hfit : names_fit names q) :
    ∃ cap2 red2, poll_until_none names ⟨q, cap, red⟩ =
      Drained.done ((survivors names false q).filterMap (normal_form names)) ⟨[], cap2, red2⟩ :=
  drain_spec names (q.length + 1) q cap red (Nat.lt_succ_self _) hfit

/-- Totality of one call, on every queue: given more fuel than the queue has
events, a run of the body ends in the fault, or returns nothing and leaves the
queue empty, or returns an event and leaves a shorter queue. -/
theorem poll_loop_total (names : Nat → List Nat) : ∀ (fuel : Nat) (sys : Sys),
    sys.queue.length < fuel →
    poll_loop names fuel sys = Poll.fault ∨
      (∃ sys2, poll_loop names fuel sys = Poll.ret none sys2 ∧ sys2.queue = []) ∨
      (∃ ev sys2, poll_loop names fuel sys = Poll.ret (some ev) sys2 ∧
        sys2.queue.length < sys.queue.length) := by
  intro fuel
  induction fuel with
  | zero => intro sys h; omega
  | succ n ih =>
    intro sys hlen
    obtain ⟨queue, cap, red⟩ := sys
    cases queue with
    | nil => exact Or.inr (Or.inl ⟨_, rfl, rfl⟩)
    | cons e rest =>
      have hrest : rest.length < n := by
        simp only [List.length_cons] at hlen
        omega
      have lift : ∀ (sys3 : Sys), sys3.queue.length ≤ rest.length →
          poll_loop names (n + 1) ⟨e :: rest, cap, red⟩ = poll_loop names n sys3 →
          poll_loop names (n + 1) ⟨e :: rest, cap, red⟩ = Poll.fault ∨
          (∃ sys2, poll_loop names (n + 1) ⟨e :: rest, cap, red⟩ = Poll.ret none sys2 ∧
            sys2.queue = []) ∨
          (∃ ev sys2, poll_loop names (n + 1) ⟨e :: rest, cap, red⟩ = Poll.ret (some ev) sys2 ∧
            sys2.queue.length < (e :: rest).length) := by
        intro sys3 h3 hp
        rw [hp]
        rcases ih sys3 (by omega) with h | ⟨s2, h, hq⟩ | ⟨ev, s2, h, hq⟩
        · exact Or.inl h
        · exact Or.inr (Or.inl ⟨s2, h, hq⟩)
        · refine Or.inr (Or.inr ⟨ev, s2, h, ?_⟩)
          simp only [List.length_cons]
          omega
      cases e with
      | windowevent w d1 d2 =>
        cases w with
        | resized => exact Or.inr (Or.inr ⟨_, _, rfl, by simp⟩)
        | exposed => exact lift ⟨rest, cap, red + 1⟩ (le_refl _) (by simp [poll_loop])
        | focus_gained =>
          exact lift ⟨flush_keydown rest, cap, red⟩ (flush_keydown_length rest)
            (by simp [poll_loop])
        | other id => exact lift ⟨rest, cap, red⟩ (le_refl _) (by simp [poll_loop])
      | other code => exact lift ⟨rest, cap, red⟩ (le_refl _) (by simp [poll_loop])
      | keydown sym =>
        cases hk : key_name buf_size names sym with
        | none => exact Or.inl (by simp [poll_loop, hk])
        | some name =>
          exact Or.inr (Or.inr ⟨Event.keypressed name, ⟨rest, cap, red⟩,
            by simp [poll_loop, hk], by simp⟩)
      | keyup sym =>
        cases hk : key_name buf_size names sym with
        | none => exact Or.inl (by simp [poll_loop, hk])
        | some name =>
          exact Or.inr (Or.inr ⟨Event.keyreleased name, ⟨rest, cap, red⟩,
            by simp [poll_loop, hk], by simp⟩)
      | mousebuttondown button x y clicks =>
        refine Or.inr (Or.inr ⟨_, _, rfl, ?_⟩)
        by_cases hb : button = 1 <;> simp [hb]
      | mousebuttonup button x y clicks =>
        refine Or.inr (Or.inr ⟨_, _, rfl, ?_⟩)
        by_cases hb : button = 1 <;> simp [hb]
      | quit => exact Or.inr (Or.inr ⟨_, _, rfl, by simp⟩)
      | dropfile file => exact Or.inr (Or.inr ⟨_, _, rfl, by simp⟩)
      | textinput text => exact Or.inr (Or.inr ⟨_, _, rfl, by simp⟩)
      | textediting text start length => exact Or.inr (Or.inr ⟨_, _, rfl, by simp⟩)
      | mousemotion x y xrel yrel => exact Or.inr (Or.inr ⟨_, _, rfl, by simp⟩)
      | mousewheel x y => exact Or.inr (Or.inr ⟨_, _, rfl, by simp⟩)

/-- The drain loop never runs out of fuel: it ends in the fault or with an empty queue. -/
theorem drain_total (names : Nat → List Nat) : ∀ (fuel : Nat) (sys : Sys),
    sys.queue.length < fuel →
    drain names fuel sys = Drained.fault ∨
      ∃ events sys2, drain names fuel sys = Drained.done events sys2 ∧ sys2.queue = [] := by
  intro fuel
  induction fuel with
  | zero => intro sys h; omega
  | succ n ih =>
    intro sys hlen
    rcases poll_loop_total names (sys.queue.length + 1) sys (Nat.lt_succ_self _) with
      h | ⟨s2, h, hq⟩ | ⟨ev, s2, h, hq⟩
    · exact Or.inl (by simp [drain, f_poll_event, h])
    · exact Or.inr ⟨[], s2, by simp [drain, f_poll_event, h], hq⟩
    · rcases ih s2 (by omega) with g | ⟨events, s3, g, gq⟩
      · exact Or.inl (by simp [drain, f_poll_event, h, g])
      · exact Or.inr ⟨ev :: events, s3, by simp [drain, f_poll_event, h, g], gq⟩

/-- The example of the contract: an exposed event followed by a key press makes
the first call redraw once and return the key press; the second call returns
nothing. -/
theorem poll_exposed_then_key :
    f_poll_event sdl_names
        ⟨[SDL_Event.windowevent WindowEventID.exposed 0 0, SDL_Event.keydown SDLK_RETURN],
          false, 0⟩ =
      Poll.ret (some (Event.keypressed (ascii "return"))) ⟨[], false, 1⟩ ∧
    f_poll_event sdl_names ⟨[], false, 1⟩ = Poll.ret none ⟨[], false, 1⟩ := by
  decide

/-- A drain with a purge: the key press queued behind the focus-gained event is
dropped, the key release behind it is not. -/
theorem poll_until_none_purge :
    poll_until_none sdl_names
        ⟨[SDL_Event.keydown SDLK_RETURN, SDL_Event.windowevent WindowEventID.focus_gained 0 0,
          SDL_Event.keydown SDLK_RETURN, SDL_Event.other 7, SDL_Event.keyup SDLK_RETURN],
          false, 0⟩ =
      Drained.done [Event.keypressed (ascii "return"), Event.keyreleased (ascii "return")]
        ⟨[], false, 0⟩ := by
  decide

/-! ## The claims -/

/-- C1, evaluated on the queue holding one key press of `SDLK_KP_MEMSUBTRACT`:
the platform name "Keypad MemSubtract" has 18 bytes, `key_name` copies it and
its terminator into the 16 bytes of `buf`, and the drain ends in that fault
instead of returning the key-press event. -/
theorem poll_until_none_long_key_name :
    (sdl_names SDLK_KP_MEMSUBTRACT).length = 18 ∧
      f_poll_event sdl_names ⟨[SDL_Event.keydown SDLK_KP_MEMSUBTRACT], false, 0⟩ = Poll.fault ∧
      poll_until_none sdl_names ⟨[SDL_Event.keydown SDLK_KP_MEMSUBTRACT], false, 0⟩ =
        Drained.fault := by
  decide

/-- C2: for a candidate and a query without space characters (and without NUL
bytes, as C strings), `f_fuzzy_match` returns a score exactly when the query
is, ignoring ASCII letter case, a subsequence of the candidate; otherwise it
returns "no match". -/
theorem fuzzy_match_iff_subsequence (c q : List Nat) (hc0 : 0 ∉ c) (hq0 : 0 ∉ q)
    (hcs : 32 ∉ c) (hqs : 32 ∉ q) :
    ((∃ v, f_fuzzy_match c q = Outcome.score v) ↔
        (q.map tolower).Sublist (c.map tolower)) ∧
      (¬ (q.map tolower).Sublist (c.map tolower) → f_fuzzy_match c q = Outcome.nomatch) := by
  rw [f_fuzzy_match_clean c q hc0 hq0 hcs hqs]
  obtain ⟨h1, h2⟩ := greedy_sublist c q 0 0
  refine ⟨⟨?_, ?_⟩, ?_⟩
  · rintro ⟨v, hv⟩
    by_contra hn
    rw [h2 hn] at hv
    exact Outcome.noConfusion hv
  · intro hs
    obtain ⟨v, hv⟩ := h1 hs
    exact ⟨wrap_int v, by rw [hv]; rfl⟩
  · intro hn
    rw [h2 hn]
    rfl

theorem fuzzy_match_iff_subsequence_witness :
    ¬ ((ascii "xyz").map tolower).Sublist ((ascii "abc").map tolower) ∧
      f_fuzzy_match (ascii "abc") (ascii "xyz") = Outcome.nomatch :=
  ⟨by decide,
    (fuzzy_match_iff_subsequence (ascii "abc") (ascii "xyz") (by decide) (by decide)
      (by decide) (by decide)).2 (by decide)⟩

/-- C3 as stated fails: the space inside the unconsumed tail of "a b" costs a
point, so ("a b", "a") scores -2 while ("ab", "a") scores -1. -/
theorem fuzzy_match_tail_space_counts :
    f_fuzzy_match (ascii "a b") (ascii "a") = Outcome.score (-2) ∧
      f_fuzzy_match (strip (ascii "a b")) (strip (ascii "a")) = Outcome.score (-1) ∧
      f_fuzzy_match (ascii "a b") (ascii "a") ≠
        f_fuzzy_match (strip (ascii "a b")) (strip (ascii "a")) := by
  decide

/-- C3, amended: for a candidate `c` and a query `q` (C strings), whenever the
scan stays inside the candidate and does not end on spaces of the query (bytes
of the query left, all of them spaces), removing every space from both strings
keeps the match / no-match outcome, and on a match the score of `(c, q)` is the
score of the stripped pair minus the number of spaces in the candidate tail
`fuzzy_rest c q` left unconsumed when the scan stops, as an `int`; for a
candidate of at most 65536 bytes that is the plain difference.  The scan stays
inside the candidate when `c` does not end in a space, and it does not end on
spaces of the query when `q` does not end in a space. -/
theorem fuzzy_match_spaces_up_to_tail (c q : List Nat) (hc0 : 0 ∉ c) (hq0 : 0 ∉ q) :
    (c.getLast? ≠ some 32 → f_fuzzy_match c q ≠ Outcome.overrun) ∧
      (q.getLast? ≠ some 32 →
        ¬ (fuzzy_query_rest c q ≠ [] ∧ strip (fuzzy_query_rest c q) = [])) ∧
      (f_fuzzy_match c q ≠ Outcome.overrun →
        ¬ (fuzzy_query_rest c q ≠ [] ∧ strip (fuzzy_query_rest c q) = []) →
        fuzzy_rest c q <:+ c ∧
          ((f_fuzzy_match c q = Outcome.nomatch ∧
              f_fuzzy_match (strip c) (strip q) = Outcome.nomatch) ∨
            ∃ v, f_fuzzy_match (strip c) (strip q) = Outcome.score v ∧
              f_fuzzy_match c q =
                Outcome.score (wrap_int (v - ((fuzzy_rest c q).count 32 : Int))) ∧
              (c.length ≤ 65536 → f_fuzzy_match c q =
                Outcome.score (v - ((fuzzy_rest c q).count 32 : Int))))) := by
  obtain ⟨h0, h1, h2⟩ := ideal_loop_strip (c.length + 1) c q 0 0 (Nat.lt_succ_self _) hc0 hq0
  have hrest : fuzzy_rest c q = scan_rest (ideal_loop (c.length + 1) c q 0 0) := by
    rw [fuzzy_rest, fuzzy_loop_start, scan_rest_wrap]
  have hqrest : fuzzy_query_rest c q = scan_query_rest (ideal_loop (c.length + 1) c q 0 0) := by
    rw [fuzzy_query_rest, fuzzy_loop_start, scan_query_rest_wrap]
  have hover : f_fuzzy_match c q = Outcome.overrun ↔
      ideal_loop (c.length + 1) c q 0 0 = Scan.overrun := by
    rw [f_fuzzy_match_wrap, wrap_outcome_overrun, ideal_match, ideal_result_overrun]
  rw [hqrest, hrest]
  refine ⟨fun hc hres => h0 hc (hover.1 hres), h1, ?_⟩
  intro hno hstop
  obtain ⟨h3, h4⟩ := h2 (fun e => hno (hover.2 e)) hstop
  refine ⟨h4, ?_⟩
  have h5 := ideal_match_clean (strip c) (strip q) (zero_not_mem_strip hc0)
    (zero_not_mem_strip hq0) (space_not_mem_strip c) (space_not_mem_strip q)
  have h6 : ideal_match c q =
      penalize ((scan_rest (ideal_loop (c.length + 1) c q 0 0)).count 32)
        (greedy (strip c) (strip q) 0 0) := h3
  rw [f_fuzzy_match_wrap, f_fuzzy_match_wrap, h5, h6]
  obtain ⟨g1, g2⟩ := greedy_sublist (strip c) (strip q) 0 0
  by_cases hs : ((strip q).map tolower).Sublist ((strip c).map tolower)
  · obtain ⟨w, hw⟩ := g1 hs
    right
    rw [hw]
    refine ⟨wrap_int w, rfl, ?_, ?_⟩
    · simp only [penalize, wrap_outcome, wrap_int_sub_left]
    · intro hlen
      obtain ⟨r1, r2⟩ := greedy_range (strip c) (strip q) 0 0 w (le_refl _) hw
      have r3 := greedy_bound (strip c) (strip q) 0 0 w (le_refl _) hw
      have r4 := run_reward_small (le_trans r2 (le_trans (List.length_filter_le _ c) hlen))
      have r5 : ((strip c).length : Int) ≤ 65536 := by
        have := le_trans (List.length_filter_le (fun x => decide (x ≠ 32)) c) hlen
        exact_mod_cast this
      have r6 : ((scan_rest (ideal_loop (c.length + 1) c q 0 0)).count 32 : Int) ≤ 65536 := by
        have hcnt : (scan_rest (ideal_loop (c.length + 1) c q 0 0)).count 32 ≤ 65536 :=
          le_trans (le_trans (List.count_le_length 32 _) h4.length_le) hlen
        exact_mod_cast hcnt
      have r7 : ((strip q).length : Int) ≤ (strip c).length := by exact_mod_cast r2
      have r8 : (run_reward (strip q).length : Int) ≤ 2147450880 := by exact_mod_cast r4
      have fw : fits_int w := by
        unfold fits_int
        constructor <;> omega
      have fd : fits_int
          (w - ((scan_rest (ideal_loop (c.length + 1) c q 0 0)).count 32 : Int)) := by
        unfold fits_int
        constructor <;> omega
      simp only [penalize, wrap_outcome, wrap_int_of_fits fw, wrap_int_of_fits fd]
  · left
    rw [g2 hs]
    exact ⟨rfl, rfl⟩

theorem fuzzy_match_spaces_up_to_tail_witness :
    f_fuzzy_match (strip (ascii "a b c d ")) (strip (ascii "a c ")) = Outcome.score (-2) ∧
      fuzzy_rest (ascii "a b c d ") (ascii "a c ") = ascii " " ∧
      fuzzy_query_rest (ascii "a b c d ") (ascii "a c ") = [] ∧
      f_fuzzy_match (ascii "a b c d ") (ascii "a c ") = Outcome.score (-2 - 1) ∧
      (fuzzy_rest (ascii "a b c d ") (ascii "a c ") <:+ ascii "a b c d " ∧
        ((f_fuzzy_match (ascii "a b c d ") (ascii "a c ") = Outcome.nomatch ∧
            f_fuzzy_match (strip (ascii "a b c d ")) (strip (ascii "a c ")) =
              Outcome.nomatch) ∨
          ∃ v, f_fuzzy_match (strip (ascii "a b c d ")) (strip (ascii "a c ")) =
              Outcome.score v ∧
            f_fuzzy_match (ascii "a b c d ") (ascii "a c ") =
              Outcome.score
                (wrap_int (v - ((fuzzy_rest (ascii "a b c d ") (ascii "a c ")).count 32 : Int))) ∧
            ((ascii "a b c d ").length ≤ 65536 →
              f_fuzzy_match (ascii "a b c d ") (ascii "a c ") =
                Outcome.score
                  (v - ((fuzzy_rest (ascii "a b c d ") (ascii "a c ")).count 32 : Int))))) :=
  ⟨by decide, by decide, by decide, by decide,
    (fuzzy_match_spaces_up_to_tail (ascii "a b c d ") (ascii "a c ") (by decide)
      (by decide)).2.2 (by decide) (by decide)⟩

/-- C4 as stated fails: the candidate and the query both 65537 times the letter
`a` are one unbroken occurrence with reward `65537 * 65536 / 2 = 2147516416`,
which no `int` holds; the score that comes back is `-2147450880`. -/
theorem fuzzy_match_long_run_wraps :
    (run_reward (List.replicate 65537 97).length : Int) - 0 - 0 = 2147516416 ∧
      f_fuzzy_match (List.replicate 65537 97) (List.replicate 65537 97) =
        Outcome.score (-2147450880) ∧
      f_fuzzy_match (List.replicate 65537 97) (List.replicate 65537 97) ≠
        Outcome.score ((run_reward (List.replicate 65537 97).length : Int) - 0 - 0) := by
  have h0 : 0 ∉ List.replicate 65537 97 :=
    fun h => absurd (List.eq_of_mem_replicate h) (by decide)
  have hs : 32 ∉ List.replicate 65537 97 :=
    fun h => absurd (List.eq_of_mem_replicate h) (by decide)
  have hcat : List.replicate 65537 97 = [] ++ List.replicate 65537 97 ++ [] := by
    rw [List.nil_append, List.append_nil]
  have h := f_fuzzy_match_run (List.replicate 65537 97) (List.replicate 65537 97) h0 h0 hs hs
    [] [] hcat (fun x hx => absurd hx (List.not_mem_nil x))
  have hk : (List.replicate 65537 97).length = 65537 := List.length_replicate _ _
  have hr : run_reward 65537 = 2147516416 := by decide
  have hw : wrap_int (2147516416 - 0 - 0) = -2147450880 := by decide
  rw [hk, hr] at h ⊢
  simp only [List.length_nil, Nat.cast_ofNat, Nat.cast_zero] at h
  rw [hw] at h
  refine ⟨by norm_num, h, ?_⟩
  rw [h]
  simp only [Nat.cast_ofNat]
  decide

/-- C4, amended: for a space-free candidate `c` and a space-free query `q` of
length `k` (C strings): when `c` has at most 2147483648 bytes, a score returned
by `f_fuzzy_match` is at most `k(k-1)/2 - (len c - k)`; when `c = p ++ q ++ t`
where no byte of `p` equals, ignoring case, the first byte of `q`, and the
value `k(k-1)/2 - len p - len t` fits an `int`, the score is exactly that
value; and the value fits whenever `c` has at most 65536 bytes. -/
theorem fuzzy_match_run_bound (c q : List Nat) (hc0 : 0 ∉ c) (hq0 : 0 ∉ q)
    (hcs : 32 ∉ c) (hqs : 32 ∉ q) :
    (c.length ≤ 2147483648 → ∀ v, f_fuzzy_match c q = Outcome.score v →
        v ≤ (run_reward q.length : Int) - ((c.length : Int) - (q.length : Int))) ∧
      (∀ p t, c = p ++ q ++ t → (∀ x ∈ p, ∀ y ∈ q.head?, tolower x ≠ tolower y) →
        fits_int ((run_reward q.length : Int) - (p.length : Int) - (t.length : Int)) →
        f_fuzzy_match c q =
          Outcome.score ((run_reward q.length : Int) - (p.length : Int) - (t.length : Int))) ∧
      (c.length ≤ 65536 → ∀ p t, c = p ++ q ++ t →
        fits_int ((run_reward q.length : Int) - (p.length : Int) - (t.length : Int))) := by
  refine ⟨?_, ?_, ?_⟩
  · intro hlen v hv
    rw [f_fuzzy_match_clean c q hc0 hq0 hcs hqs] at hv
    cases hg : greedy c q 0 0 with
    | score w =>
      rw [hg] at hv
      simp only [wrap_outcome, Outcome.score.injEq] at hv
      have hb := greedy_bound c q 0 0 w (le_refl _) hg
      obtain ⟨r1, _⟩ := greedy_range c q 0 0 w (le_refl _) hg
      have hl : (c.length : Int) ≤ 2147483648 := by exact_mod_cast hlen
      have hw := wrap_int_le (v := w) (by omega)
      simp only [mul_zero, add_zero, zero_add] at hb
      omega
    | _ =>
      rw [hg] at hv
      simp [wrap_outcome] at hv
  · intro p t hcat hp hfit
    rw [f_fuzzy_match_run c q hc0 hq0 hcs hqs p t hcat hp, wrap_int_of_fits hfit]
  · intro hlen p t hcat
    subst hcat
    simp only [List.length_append] at hlen
    have r4 := run_reward_small (k := q.length) (by omega)
    have r8 : (run_reward q.length : Int) ≤ 2147450880 := by exact_mod_cast r4
    have hp : (p.length : Int) ≤ 65536 := by
      have : p.length ≤ 65536 := by omega
      exact_mod_cast this
    have ht : (t.length : Int) ≤ 65536 := by
      have : t.length ≤ 65536 := by omega
      exact_mod_cast this
    unfold fits_int
    constructor <;> omega

theorem fuzzy_match_run_bound_witness :
    ascii "sayhello" = ascii "say" ++ ascii "hel" ++ ascii "lo" ∧
      fits_int ((run_reward (ascii "hel").length : Int) - ((ascii "say").length : Int)
        - ((ascii "lo").length : Int)) ∧
      f_fuzzy_match (ascii "sayhello") (ascii "hel") = Outcome.score (3 - 3 - 2) :=
  ⟨by decide, by decide,
    (fuzzy_match_run_bound (ascii "sayhello") (ascii "hel") (by decide) (by decide) (by decide)
      (by decide)).2.1 (ascii "say") (ascii "lo") (by decide) (by decide) (by decide)⟩

/-- C5 as stated fails on a candidate of 2147483649 bytes: `(int) strlen(str)` is
`-2147483647` there and the score that comes back is `2147483647`, not minus
the length. -/
theorem fuzzy_match_empty_query_huge :
    (List.replicate 2147483649 97).length = 2147483649 ∧
      f_fuzzy_match (List.replicate 2147483649 97) [] = Outcome.score 2147483647 ∧
      f_fuzzy_match (List.replicate 2147483649 97) [] ≠
        Outcome.score (-((List.replicate 2147483649 97).length : Int)) := by
  have h0 : 0 ∉ List.replicate 2147483649 97 :=
    fun h => absurd (List.eq_of_mem_replicate h) (by decide)
  have hk : (List.replicate 2147483649 97).length = 2147483649 := List.length_replicate _ _
  have h := f_fuzzy_match_nil (List.replicate 2147483649 97)
  have hw : wrap_int (0 - wrap_int ((2147483649 : Nat) : Int)) = 2147483647 := by decide
  rw [strlen_eq_length _ h0, hk, hw] at h
  refine ⟨hk, h, ?_⟩
  rw [h, hk]
  decide

/-- C5, amended: with the empty query every candidate (a C string) of at most
2147483648 bytes matches, and the score is minus the length of the candidate. -/
theorem fuzzy_match_empty_query (c : List Nat) (hc0 : 0 ∉ c) (hlen : c.length ≤ 2147483648) :
    f_fuzzy_match c [] = Outcome.score (-(c.length : Int)) := by
  have hl : (c.length : Int) ≤ 2147483648 := by exact_mod_cast hlen
  have e : wrap_int (0 - wrap_int (c.length : Int)) = -(c.length : Int) := by
    unfold wrap_int
    omega
  rw [f_fuzzy_match_nil, strlen_eq_length c hc0, e]

theorem fuzzy_match_empty_query_witness :
    0 ∉ ascii "abc" ∧ (ascii "abc").length ≤ 2147483648 ∧
      f_fuzzy_match (ascii "abc") [] = Outcome.score (-3) :=
  ⟨by decide, by decide, fuzzy_match_empty_query (ascii "abc") (by decide) (by decide)⟩

/-- C6 as stated fails: `f_fuzzy_match("hello", "he")` does not score -1. -/
theorem fuzzy_match_hello_he_not_minus_one :
    f_fuzzy_match (ascii "hello") (ascii "he") ≠ Outcome.score (-1) := by
  decide

/-- C6, amended: `f_fuzzy_match("hello", "he")` is a match with score exactly -2
(run reward 0 + 1, minus the 3 trailing candidate bytes). -/
theorem fuzzy_match_hello_he :
    f_fuzzy_match (ascii "hello") (ascii "he") = Outcome.score (-2) := by
  decide

/-- C7, evaluated on the candidate "a " with the query "a " and on their case
variant "A " with "A ": in both calls the scan steps both cursors past the
terminators, so each result is read from whatever lies behind the two
strings of that call, and nothing makes the two calls agree. -/
theorem fuzzy_match_case_overrun :
    (ascii "a ").map tolower = (ascii "A ").map tolower ∧
      f_fuzzy_match (ascii "a ") (ascii "a ") = Outcome.overrun ∧
      f_fuzzy_match (ascii "A ") (ascii "A ") = Outcome.overrun := by
  decide

/-- C8: a call of `f_poll_event` that returns a mouse-pressed event for the left
button leaves mouse capture on, one that returns a mouse-released event for
the left button leaves it off, and every other returning call leaves it as it
was; "left" is the name of button 1 only; the click count of the native event
is the last field of the pressed event and is not part of the released event. -/
theorem poll_event_capture (names : Nat → List Nat) (sys sys2 : Sys) (ev : Option Event)
    (h : f_poll_event names sys = Poll.ret ev sys2) :
    ((∃ x y clicks, ev = some (Event.mousepressed "left" x y clicks)) → sys2.capture = true) ∧
    ((∃ x y, ev = some (Event.mousereleased "left" x y)) → sys2.capture = false) ∧
    ((∀ x y clicks, ev ≠ some (Event.mousepressed "left" x y clicks)) →
      (∀ x y, ev ≠ some (Event.mousereleased "left" x y)) → sys2.capture = sys.capture) ∧
    (∀ button, button_name button = "left" ↔ button = 1) ∧
    (∀ button x y clicks rest cap red,
      f_poll_event names ⟨SDL_Event.mousebuttondown button x y clicks :: rest, cap, red⟩ =
        Poll.ret (some (Event.mousepressed (button_name button) x y clicks))
          ⟨rest, if button = 1 then true else cap, red⟩) ∧
    (∀ button x y clicks rest cap red,
      f_poll_event names ⟨SDL_Event.mousebuttonup button x y clicks :: rest, cap, red⟩ =
        Poll.ret (some (Event.mousereleased (button_name button) x y))
          ⟨rest, if button = 1 then false else cap, red⟩) := by
  obtain ⟨h1, h2, h3⟩ := poll_loop_capture names _ sys sys2 ev h
  refine ⟨h1, h2, h3, button_name_left, ?_, ?_⟩
  · intro button x y clicks rest cap red
    by_cases hb : button = 1 <;> simp [f_poll_event, poll_loop, hb]
  · intro button x y clicks rest cap red
    by_cases hb : button = 1 <;> simp [f_poll_event, poll_loop, hb]

theorem poll_event_capture_witness :
    f_poll_event sdl_names
        ⟨[SDL_Event.windowevent WindowEventID.exposed 0 0,
          SDL_Event.mousebuttondown 1 30 40 2], false, 0⟩ =
      Poll.ret (some (Event.mousepressed "left" 30 40 2)) ⟨[], true, 1⟩ ∧
    (⟨[], true, 1⟩ : Sys).capture = true :=
  ⟨by decide,
    (poll_event_capture sdl_names
      ⟨[SDL_Event.windowevent WindowEventID.exposed 0 0,
        SDL_Event.mousebuttondown 1 30 40 2], false, 0⟩
      ⟨[], true, 1⟩ (some (Event.mousepressed "left" 30 40 2)) (by decide)).1 ⟨30, 40, 2, rfl⟩⟩

/-- C9, evaluated on the key `SDLK_KP_MEMSUBTRACT`: its platform name
"Keypad MemSubtract" needs 19 bytes with the terminator, `buf` has 16, so
`key_name` writes past `buf` and yields no lower-cased name; the name "Return",
which fits, comes back as "return". -/
theorem key_name_overflows_buf :
    sdl_names SDLK_KP_MEMSUBTRACT = ascii "Keypad MemSubtract" ∧
      (sdl_names SDLK_KP_MEMSUBTRACT).length + 1 = 19 ∧ buf_size = 16 ∧
      key_name buf_size sdl_names SDLK_KP_MEMSUBTRACT = none ∧
      key_name buf_size sdl_names SDLK_RETURN = some (ascii "return") := by
  decide

/-- C10, evaluated on the candidate " " and the query "a": the scan steps the
candidate cursor beyond the terminator (the inner loop skips the space onto
the NUL, the comparison fails, and `str++` leaves the string); so do the
candidate "a " with the queries "b" and "a ". -/
theorem fuzzy_match_overruns_candidate :
    f_fuzzy_match (ascii " ") (ascii "a") = Outcome.overrun ∧
      f_fuzzy_match (ascii "a ") (ascii "b") = Outcome.overrun ∧
      f_fuzzy_match (ascii "a ") (ascii "a ") = Outcome.overrun := by
  decide

end Lite
